import Mathlib

/-!
A verification development for the "moj broj" solver: a shallow embedding of
the arithmetic-expression model (`parser.py`), the generic A* search engine
(`search.py`) and the Countdown domain adapter (`moj_broj_solver.py`),
together with theorems settling the specification claims.

Conventions used throughout the embedding:
* Python integers are modelled by `Int` (they are arbitrary precision).
* Python `%` on integers is floor-mod while Lean's `%` on `Int` is Euclidean
  mod; the two agree on whether the remainder is zero (`b ∣ a`), which is the
  only way the sources use `%` in guards, so guards are embedded with Lean `%`.
* A raised Python exception is modelled by an error value (`Except`/`Option`).
* Python's float ("binary64") true division of two ints is correctly rounded
  (round to nearest, ties to even) and raises `OverflowError` when the rounded
  result is too large for a float; `int(...)` truncates a float toward zero.
  This is modelled exactly by `pyTruncDiv` below using integer arithmetic.
-/

namespace MojBroj

/-- The four binary operators of `parser.py` (`+ - * /`). -/
inductive Op : Type
  | add
  | sub
  | mul
  | div
deriving DecidableEq, Repr

/-- `parser.py` `precedence`: 2 for `+ -`, 3 for `* /`. -/
def precedence : Op → Nat
  | .add => 2
  | .sub => 2
  | .mul => 3
  | .div => 3

/-- `parser.py` `associative`: an operator is associative iff it is `+` or `*`. -/
def associative (o : Op) : Bool :=
  o = Op.add ∨ o = Op.mul

/-! ### Model of CPython's float true division of integers

`int(v1 / v2)` in the sources performs CPython's `int.__truediv__`, which
produces the binary64 float nearest to the exact rational `v1 / v2`
(round-to-nearest, ties-to-even; subnormals are rounded at ulp `2 ^ (-1074)`),
raising `ZeroDivisionError` when `v2 = 0` and `OverflowError` when the rounded
result is at least `2 ^ 1024`; `int` then truncates the float toward zero.
The functions below implement this with exact `Nat`/`Int` arithmetic (fuel is
used for recursion so that all definitions reduce in the kernel). -/

/-- Powers of two by structural recursion (so that all kernel reductions of
the float model are plain unfoldings). -/
def pow2 : Nat → Nat
  | 0 => 1
  | n + 1 => 2 * pow2 n

theorem pow2_eq (n : Nat) : pow2 n = 2 ^ n := by
  induction n with
  | zero => rfl
  | succ n ih => rw [pow2, ih, pow_succ, Nat.mul_comm]

/-- Fuelled floor of `log2`: `log2fuel f n` is `⌊log2 n⌋` for `1 ≤ n ≤ 2 ^ f`. -/
def log2fuel : Nat → Nat → Nat
  | 0, _ => 0
  | f + 1, n => if 2 ≤ n then log2fuel f (n / 2) + 1 else 0

/-- Least `m` with `d ≤ n * 2 ^ m`, computed with fuel (`leastShift f n d`). -/
def leastShift : Nat → Nat → Nat → Nat
  | 0, _, _ => 0
  | f + 1, n, d => if d ≤ n then 0 else leastShift f (2 * n) d + 1

/-- `⌊log2 (n / d)⌋ : Int` for `n, d ≥ 1`. -/
def ratFloorLog2 (n d : Nat) : Int :=
  if d ≤ n then (log2fuel n (n / d) : Int)
  else -(leastShift d n d : Int)

/-- Division of naturals rounded to nearest, ties to even. -/
def rheDiv (n d : Nat) : Nat :=
  let q := n / d
  let r := n % d
  if 2 * r < d then q
  else if d < 2 * r then q + 1
  else if q % 2 = 0 then q else q + 1

/-- Round the positive rational `n / d` to binary64: returns the mantissa and
binary exponent `(m, e)` with value `m * 2 ^ e`, or `none` on overflow
(rounded magnitude `≥ 2 ^ 1024`). -/
def roundPosToDouble (n d : Nat) : Option (Nat × Int) :=
  let k := ratFloorLog2 n d
  let e := max (k - 52) (-1074)
  let m := if 0 ≤ e then rheDiv n (d * pow2 e.toNat) else rheDiv (n * pow2 (-e).toNat) d
  if 0 ≤ e ∧ pow2 1024 ≤ m * pow2 e.toNat then none else some (m, e)

/-- Model of Python `int(v1 / v2)`: correctly rounded float division followed
by truncation toward zero.  `none` models a raised `ZeroDivisionError`
(`v2 = 0`) or `OverflowError` (rounded quotient magnitude `≥ 2 ^ 1024`). -/
def pyTruncDiv (v1 v2 : Int) : Option Int :=
  if v2 = 0 then none
  else if v1 = 0 then some 0
  else
    match roundPosToDouble v1.natAbs v2.natAbs with
    | none => none
    | some (m, e) =>
        let t : Nat := if 0 ≤ e then m * pow2 e.toNat else m / pow2 (-e).toNat
        some (if (0 ≤ v1) = (0 ≤ v2) then (t : Int) else -(t : Int))

/-! ### The expression model (`parser.py`, `BinaryIntegerArithmeticExpression`)

An instance is either a literal (constructed from an `int`) or an operator
node with two child expressions.  The inductive below mirrors the two shapes;
`node a b o` stores `op1 = a`, `op2 = b`, `o = o`. -/

/-- `BinaryIntegerArithmeticExpression`: a literal integer or a binary node. -/
inductive Expr : Type
  | lit (n : Int)
  | node (op1 op2 : Expr) (o : Op)
deriving DecidableEq, Repr

/-- The `value` property: `+ - *` on Python ints are exact; the `/` branch is
`int(v1 / v2)` (float true division, then truncation), modelled by
`pyTruncDiv`.  `none` models a raised exception (`OverflowError` or
`ZeroDivisionError`) propagating out of the evaluation.  The source memoizes
the result in `_value`; memoization of a pure computation is dropped. -/
def value : Expr → Option Int
  | .lit n => some n
  | .node a b o => do
      let v1 ← value a
      let v2 ← value b
      match o with
      | .add => some (v1 + v2)
      | .sub => some (v1 - v2)
      | .mul => some (v1 * v2)
      | .div => pyTruncDiv v1 v2

/-- The ideal (exact-arithmetic) value of an expression, with exact integer
division in the `div` case.  This is a specification-side function used to
state theorems; the code's `value` is the function above. -/
def exactVal : Expr → Int
  | .lit n => n
  | .node a b o =>
      match o with
      | .add => exactVal a + exactVal b
      | .sub => exactVal a - exactVal b
      | .mul => exactVal a * exactVal b
      | .div => exactVal a / exactVal b

/-- The expression contains no division node. -/
def divFree : Expr → Prop
  | .lit _ => True
  | .node a b o => o ≠ Op.div ∧ divFree a ∧ divFree b

instance instDecDivFree : (e : Expr) → Decidable (divFree e)
  | .lit _ => .isTrue trivial
  | .node a b o =>
      letI := instDecDivFree a
      letI := instDecDivFree b
      inferInstanceAs (Decidable (o ≠ Op.div ∧ divFree a ∧ divFree b))

/-- Every literal of the expression is nonnegative. -/
def nonnegLits : Expr → Prop
  | .lit n => 0 ≤ n
  | .node a b _ => nonnegLits a ∧ nonnegLits b

instance instDecNonnegLits : (e : Expr) → Decidable (nonnegLits e)
  | .lit n => inferInstanceAs (Decidable (0 ≤ n))
  | .node a b _ =>
      letI := instDecNonnegLits a
      letI := instDecNonnegLits b
      inferInstanceAs (Decidable (nonnegLits a ∧ nonnegLits b))

/-- Exceptions of the expression model.  `parseError` is
`ExpressionParseError`, `invalidExpression` is `InvalidExpressionException`,
`indexError` models `list.pop` / `list.index` failures on empty lists, and
`raised` models an arithmetic exception (`ZeroDivisionError`,
`OverflowError`) propagating out of a `value` computation. -/
inductive Err : Type
  | parseError
  | invalidExpression
  | indexError
  | raised
deriving DecidableEq, Repr

/-- `BinaryIntegerArithmeticExpression.__init__` with two operands: for `/` it
evaluates `op1.value % op2.value` (raising whatever those evaluations raise,
then `ZeroDivisionError` if `op2.value == 0`) and raises
`InvalidExpressionException` when the remainder is nonzero; any other
operator constructs the node without looking at the children. -/
def compose (l r : Expr) (o : Op) : Except Err Expr :=
  if o = Op.div then
    match value l with
    | none => .error .raised
    | some v1 =>
        match value r with
        | none => .error .raised
        | some v2 =>
            if v2 = 0 then .error .raised
            else if v1 % v2 ≠ 0 then .error .invalidExpression
            else .ok (.node l r o)
  else .ok (.node l r o)

/-! ### Rendering (`rep` / `__str__`) -/

/-- The decimal digit characters. -/
def digitChar : Nat → Char
  | 0 => '0'
  | 1 => '1'
  | 2 => '2'
  | 3 => '3'
  | 4 => '4'
  | 5 => '5'
  | 6 => '6'
  | 7 => '7'
  | 8 => '8'
  | _ => '9'

/-- Fuelled most-significant-first decimal digits of `n` (empty for `0`). -/
def natDigitsF : Nat → Nat → List Char
  | 0, _ => []
  | f + 1, n => if n = 0 then [] else natDigitsF f (n / 10) ++ [digitChar (n % 10)]

/-- Decimal representation of a natural number (Python `'{}'.format(n)`). -/
def natChars (n : Nat) : List Char :=
  if n = 0 then ['0'] else natDigitsF n n

/-- Decimal representation of an integer, with a leading `-` when negative. -/
def intChars (n : Int) : List Char :=
  if n < 0 then '-' :: natChars n.natAbs else natChars n.natAbs

/-- The operator characters. -/
def opChar : Op → Char
  | .add => '+'
  | .sub => '-'
  | .mul => '*'
  | .div => '/'

/-- Which side of its parent a rendered child is on (`side='l'` / `side='r'`). -/
inductive Side : Type
  | l
  | r
deriving DecidableEq, Repr

/-- `associative(parent_op)` where `parent_op` may be `None` (Python:
`None in ('+', '*')` is `False`). -/
def assocOpt : Option Op → Bool
  | none => false
  | some o => associative o

/-- `rep(parent_op, side)`: literals print their value; a node prints
`op1 ⟨o⟩ op2` and wraps it in parentheses when the parent has strictly higher
precedence, or (otherwise) when the parent is non-associative and this node is
its right operand.  Characters are produced as a `List Char`. -/
def rep : Expr → Option Op → Option Side → List Char
  | .lit n, _, _ => intChars n
  | .node a b o, parentOp, side =>
      let r1 := rep a (some o) (some .l)
      let r2 := rep b (some o) (some .r)
      let r := r1 ++ [' ', opChar o, ' '] ++ r2
      if parentOp.isSome ∧ precedence (parentOp.getD o) > precedence o then
        '(' :: r ++ [')']
      else if ¬ assocOpt parentOp ∧ side = some Side.r then
        '(' :: r ++ [')']
      else r

/-- `__str__`: `rep` with no parent context, packaged as a `String`. -/
def render (e : Expr) : String :=
  ⟨rep e none none⟩

/-! ### Parsing (`parse`): tokenizer, shunting yard, postfix fold -/

/-- Tokens (`Token` enum with attached values): a number, a parenthesis, or
one of the four operators. -/
inductive Tok : Type
  | num (n : Nat)
  | lparen
  | rparen
  | op (o : Op)
deriving DecidableEq, Repr

/-- Python `int` on a string of decimal digits. -/
def charsToNat (cs : List Char) : Nat :=
  cs.foldl (fun a c => a * 10 + (c.toNat - 48)) 0

/-- Flush the pending digit buffer into a number token (no token when the
buffer is empty, i.e. when `on_number` was false). -/
def flushNum (buf : List Char) : List Tok :=
  if buf = [] then [] else [.num (charsToNat buf)]

/-- The tokenizer loop of `parse`: digits accumulate into a buffer; any other
character first flushes the buffer, then whitespace is skipped, parentheses
and operators become tokens, and anything else raises
`ExpressionParseError` (`Unknown symbol`).  `c.isDigit` is exactly Python's
`c in "0123456789"`. -/
def tokenizeGo : List Char → List Char → Except Err (List Tok)
  | [], buf => .ok (flushNum buf)
  | c :: cs, buf =>
      if c.isDigit then tokenizeGo cs (buf ++ [c])
      else
        let pre := flushNum buf
        if c = ' ' ∨ c = '\n' ∨ c = '\t' then (pre ++ ·) <$> tokenizeGo cs []
        else if c = '(' then (pre ++ [Tok.lparen] ++ ·) <$> tokenizeGo cs []
        else if c = ')' then (pre ++ [Tok.rparen] ++ ·) <$> tokenizeGo cs []
        else if c = '+' then (pre ++ [Tok.op .add] ++ ·) <$> tokenizeGo cs []
        else if c = '-' then (pre ++ [Tok.op .sub] ++ ·) <$> tokenizeGo cs []
        else if c = '*' then (pre ++ [Tok.op .mul] ++ ·) <$> tokenizeGo cs []
        else if c = '/' then (pre ++ [Tok.op .div] ++ ·) <$> tokenizeGo cs []
        else .error .parseError

/-- `tokenize(s)`. -/
def tokenize (cs : List Char) : Except Err (List Tok) :=
  tokenizeGo cs []

/-- Entries of the `output_queue`: integers or operator symbols. -/
inductive Item : Type
  | num (n : Nat)
  | op (o : Op)
deriving DecidableEq, Repr

/-- Entries of the `operator_stack`: operator symbols or `'('`.  The stack is
modelled head-first (Python pushes/pops at the end of its list). -/
inductive SE : Type
  | op (o : Op)
  | lparen
deriving DecidableEq, Repr

/-- The operator-token case of the shunting-yard loop: pop operators of
precedence `≥` the incoming one (stopping at `'('`) into the output queue. -/
def popOps (o : Op) : List SE → List Item → List SE × List Item
  | [], out => ([], out)
  | .lparen :: rest, out => (.lparen :: rest, out)
  | .op o2 :: rest, out =>
      if precedence o ≤ precedence o2 then popOps o rest (out ++ [.op o2])
      else (.op o2 :: rest, out)

/-- The close-paren case: pop operators into the output queue until an `'('`
is found (consuming it); `none` models `Mismatched parentheses`. -/
def popToParen : List SE → List Item → Option (List SE × List Item)
  | [], _ => none
  | .lparen :: rest, out => some (rest, out)
  | .op o2 :: rest, out => popToParen rest (out ++ [.op o2])

/-- The shunting-yard token loop of `parse`, threading the output queue and
the operator stack. -/
def syGo : List Tok → List Item → List SE → Except Err (List Item × List SE)
  | [], out, stk => .ok (out, stk)
  | .num n :: ts, out, stk => syGo ts (out ++ [.num n]) stk
  | .op o :: ts, out, stk =>
      let (stk', out') := popOps o stk out
      syGo ts out' (.op o :: stk')
  | .lparen :: ts, out, stk => syGo ts out (.lparen :: stk)
  | .rparen :: ts, out, stk =>
      match popToParen stk out with
      | none => .error .parseError
      | some (stk', out') => syGo ts out' stk'

/-- After the token loop: pop the remaining operators into the queue, raising
`Mismatched parentheses` on a leftover `'('`. -/
def drain : List SE → List Item → Except Err (List Item)
  | [], out => .ok out
  | .lparen :: _, _ => .error .parseError
  | .op o :: rest, out => drain rest (out ++ [.op o])

/-- The final fold of `parse`: numbers push literal expressions, an operator
pops `operand2` then `operand1` and pushes their composition (`__init__` may
raise), an under-full stack raises `IndexError`.  The stack is head-first. -/
def foldPostfix : List Item → List Expr → Except Err (List Expr)
  | [], st => .ok st
  | .num n :: items, st => foldPostfix items (Expr.lit (n : Int) :: st)
  | .op o :: items, e2 :: e1 :: rest =>
      (match compose e1 e2 o with
      | .ok e => foldPostfix items (e :: rest)
      | .error err => .error err)
  | .op _ :: _, [] => .error .indexError
  | .op _ :: _, [_] => .error .indexError

/-- `parse` on a character list: tokenize, shunting-yard, drain, fold, and
return the top of the final stack (`stack.pop()`, `IndexError` when empty). -/
def parseChars (cs : List Char) : Except Err Expr := do
  let ts ← tokenize cs
  let (out, stk) ← syGo ts [] []
  let out' ← drain stk out
  let st ← foldPostfix out' []
  match st with
  | e :: _ => .ok e
  | [] => .error .indexError

/-- `BinaryIntegerArithmeticExpression.parse`. -/
def parse (s : String) : Except Err Expr :=
  parseChars s.data

/-! ### The generic A* search engine (`search.py`)

`SearchNode` carries a state payload plus caller-supplied capabilities
(`id`, `possible_moves`, `apply_move`); the capabilities are gathered in
`SearchProblem`.  A node's parent chain is represented by the list of moves
from the root (`get_path`) together with the memoized `path_length` and
`path_depth`; `apply_move` returns `none` when the Python code would raise
(an arithmetic error in the move application, or `list.remove` on a missing
value).  Node comparison (`__lt__`, the heap tie-break) compares identity
keys with `idLt`. -/

/-- The caller-supplied capabilities of a `SearchNode`. -/
structure SearchProblem (σ μ ι : Type) where
  id : σ → ι
  possible_moves : σ → List μ
  apply_move : σ → μ → Option σ
  path_cost : σ → Nat
  idLt : ι → ι → Bool

/-- A `SearchNode`: state payload, moves from the root (oldest first), and
memoized path length and depth. -/
structure SNode (σ μ : Type) where
  data : σ
  move_chain : List μ
  path_length : Nat
  path_depth : Nat
deriving DecidableEq, Repr

/-- The root `SearchNode` (no parent: length 0, depth 0, empty path). -/
def rootNode (s : σ) : SNode σ μ :=
  ⟨s, [], 0, 0⟩

/-- `SearchNode.expand`: apply every generated move, stamping each child with
this node as parent; a raised exception in `apply_move` propagates
(`none`).  The child's path length adds the child's `path_cost`. -/
def expand (P : SearchProblem σ μ ι) (nd : SNode σ μ) : Option (List (SNode σ μ)) :=
  (P.possible_moves nd.data).mapM fun m =>
    (P.apply_move nd.data m).map fun s' =>
      ⟨s', nd.move_chain ++ [m], P.path_cost s' + nd.path_length, nd.path_depth + 1⟩

/-- An `AStarSearch` instance: capabilities, goal test, heuristic and the
optional depth bound. -/
structure AStar (σ μ ι : Type) where
  prob : SearchProblem σ μ ι
  is_goal : σ → Bool
  heuristic : σ → Nat
  max_depth : Option Nat

/-- `sortkey`: path length plus the (cached) heuristic. -/
def sortkey (A : AStar σ μ ι) (nd : SNode σ μ) : Nat :=
  nd.path_length + A.heuristic nd.data

/-- The mutable state of one `do_search` call: the open frontier (`heapq`
entries `(priority, node)`), the set of keys ever pushed (`fset`, modelled as
a list), and the best-known map (`visited`, an association list where the
most recent assignment is first). -/
structure SState (σ μ ι : Type) where
  frontier : List (Nat × SNode σ μ)
  fset : List ι
  visited : List (ι × SNode σ μ)

/-- Dictionary lookup in the association-list model of `visited`. -/
def alookup [DecidableEq ι] : List (ι × α) → ι → Option α
  | [], _ => none
  | (k, v) :: rest, k' => if k' = k then some v else alookup rest k'

/-- Comparison of heap entries: Python compares the tuples
`(priority, node)` lexicographically, falling back to `SearchNode.__lt__`
(identity-key comparison) on equal priorities. -/
def entryLt (P : SearchProblem σ μ ι) (x y : Nat × SNode σ μ) : Bool :=
  x.1 < y.1 ∨ (x.1 = y.1 ∧ P.idLt (P.id x.2.data) (P.id y.2.data))

/-- `heapq.heappop`: remove and return the least entry.  The engine's `fset`
guarantees all frontier keys are distinct, so the least entry is unique and
any faithful heap model returns it; we take the leftmost minimum. -/
def popMin (lt : α → α → Bool) : List α → Option (α × List α)
  | [] => none
  | x :: xs =>
      match popMin lt xs with
      | none => some (x, [])
      | some (m, rest) => if lt m x then some (m, x :: rest) else some (x, xs)

/-- The first `continue` guard of the expansion loop: a best-known node for
the child's identity key exists with path length `≤` the child's. -/
def bestKnownSkip [DecidableEq ι] (A : AStar σ μ ι) (st : SState σ μ ι)
    (c : SNode σ μ) : Bool :=
  match alookup st.visited (A.prob.id c.data) with
  | some old => old.path_length ≤ c.path_length
  | none => false

/-- The depth test of the push: `if not self.max_depth` pushes outright
(`None` and `0` are both falsy), `elif path_depth < max_depth` pushes. -/
def pushAllowed (A : AStar σ μ ι) (c : SNode σ μ) : Bool :=
  match A.max_depth with
  | none => true
  | some 0 => true
  | some d => c.path_depth < d

/-- The per-child body of the expansion loop in `do_search`: skip when a
best-known node of less or equal path length exists, skip when the key is
already in the frontier; otherwise push onto the frontier (and add the key
to the frontier set) when `pushAllowed`, and in every non-skip case record
the child as best-known in `visited`. -/
def processChild [DecidableEq ι] (A : AStar σ μ ι) (st : SState σ μ ι)
    (c : SNode σ μ) : SState σ μ ι :=
  if bestKnownSkip A st c then st
  else if A.prob.id c.data ∈ st.fset then st
  else if pushAllowed A c then
    ⟨st.frontier ++ [(sortkey A c, c)], A.prob.id c.data :: st.fset,
      (A.prob.id c.data, c) :: st.visited⟩
  else ⟨st.frontier, st.fset, (A.prob.id c.data, c) :: st.visited⟩

/-- Outcome of `do_search`: `(True, path)`, `(False, None)`, or a raised
exception propagating out of the loop. -/
inductive SOutcome (μ : Type) : Type
  | success (path : List μ)
  | failure
  | raised
deriving DecidableEq, Repr

/-- The `while frontier:` loop of `do_search`, with fuel making the recursion
structural (`none` means the fuel ran out, never that Python misbehaved). -/
def doSearchGo [DecidableEq ι] (A : AStar σ μ ι) :
    Nat → SState σ μ ι → Option (SOutcome μ)
  | 0, _ => none
  | fuel + 1, st =>
      match popMin (entryLt A.prob) st.frontier with
      | none => some .failure
      | some ((_, cur), rest) =>
          if A.is_goal cur.data then some (.success cur.move_chain)
          else
            match expand A.prob cur with
            | none => some .raised
            | some children =>
                doSearchGo A fuel
                  (children.foldl (processChild A) { st with frontier := rest })

/-- `AStarSearch.do_search`: seed the frontier and the frontier set with the
start node and run the loop. -/
def do_search [DecidableEq ι] (A : AStar σ μ ι) (start : σ) (fuel : Nat) :
    Option (SOutcome μ) :=
  let root : SNode σ μ := rootNode start
  doSearchGo A fuel
    ⟨[(sortkey A root, root)], [A.prob.id root.data], []⟩

/-! ### The Countdown domain adapter (`moj_broj_solver.py`) -/

/-- A move: `(n1, operator, n2)`. -/
abbrev Move : Type := Int × Op × Int

/-- `get_result(n1, n2, operator)`: exact `+ - *`; `/` is `int(n1 / n2)`
(float true division), so it may raise (`none`). -/
def get_result (n1 n2 : Int) (operator : Op) : Option Int :=
  match operator with
  | .add => some (n1 + n2)
  | .sub => some (n1 - n2)
  | .mul => some (n1 * n2)
  | .div => pyTruncDiv n1 n2

/-- `itertools.combinations(l, 2)`: ordered pairs of positions `i < j`. -/
def combinations2 : List α → List (α × α)
  | [] => []
  | x :: xs => xs.map (fun y => (x, y)) ++ combinations2 xs

/-- The block of candidate moves generated for one pair `(n1, n2)` inside
`possible_moves`: multiplication and addition always; each division
direction when the divisor is nonzero and divides evenly; the subtraction
of the smaller value from the larger. -/
def pairMoves (n1 n2 : Int) : List Move :=
  [(n1, Op.mul, n2), (n1, Op.add, n2)]
    ++ (if n2 ≠ 0 ∧ n1 % n2 = 0 then [(n1, Op.div, n2)] else [])
    ++ (if n1 ≠ 0 ∧ n2 % n1 = 0 then [(n2, Op.div, n1)] else [])
    ++ (if n1 ≥ n2 then [(n1, Op.sub, n2)] else [(n2, Op.sub, n1)])

/-- `possible_moves`: the concatenated move blocks over all position pairs. -/
def possible_moves (brojevi : List Int) : List Move :=
  (combinations2 brojevi).flatMap fun p => pairMoves p.1 p.2

/-- `apply_move`: remove the two operands (`list.remove` removes the first
occurrence by value and raises `ValueError` when absent — modelled by
`none`), compute the result (which may raise), and append it. -/
def apply_move (brojevi : List Int) (m : Move) : Option (List Int) :=
  let (n1, operator, n2) := m
  if n1 ∈ brojevi then
    let b1 := brojevi.erase n1
    if n2 ∈ b1 then
      (get_result n1 n2 operator).map fun r => b1.erase n2 ++ [r]
    else none
  else none

/-- Insertion step of an ascending insertion sort. -/
def insertSorted (x : Int) : List Int → List Int
  | [] => [x]
  | y :: ys => if x ≤ y then x :: y :: ys else y :: insertSorted x ys

/-- Ascending sort, modelling Python `sorted`. -/
def sortInts (l : List Int) : List Int :=
  l.foldr insertSorted []

/-- `_id`: the sorted tuple of the current numbers. -/
def idKey (brojevi : List Int) : List Int :=
  sortInts brojevi

/-- Python `tuple.__lt__`: lexicographic order, a strict prefix is smaller. -/
def keyLt : List Int → List Int → Bool
  | [], [] => false
  | [], _ :: _ => true
  | _ :: _, [] => false
  | x :: xs, y :: ys => if x < y then true else if y < x then false else keyLt xs ys

/-- `is_goal`: some number lies within `tolerance` of the target. -/
def is_goal (cilj : Int) (tolerance : Nat) (brojevi : List Int) : Bool :=
  brojevi.any fun n => (n - cilj).natAbs ≤ tolerance

/-- `heuristic`: the least absolute difference to the target (`min(diffs)`);
`min` of an empty list raises in Python, which only the empty root state can
trigger and which `cdSearch` guards separately, so the engine-side function
is total with an irrelevant default. -/
def heuristic (cilj : Int) (brojevi : List Int) : Nat :=
  match brojevi.map fun n => (n - cilj).natAbs with
  | [] => 0
  | d :: ds => ds.foldl min d

/-- The `SearchProblem` capabilities supplied by `find_solution`
(`data['brojevi']` is the state; no `path_cost` key exists, so the cost
defaults to 1). -/
def cdProblem : SearchProblem (List Int) Move (List Int) where
  id := idKey
  possible_moves := possible_moves
  apply_move := apply_move
  path_cost := fun _ => 1
  idLt := keyLt

/-- The `AStarSearch` built by `find_solution` (no `max_depth`). -/
def cdAStar (cilj : Int) (tolerance : Nat) : AStar (List Int) Move (List Int) where
  prob := cdProblem
  is_goal := is_goal cilj tolerance
  heuristic := heuristic cilj
  max_depth := none

/-- `search.do_search()` as invoked by `find_solution`.  Seeding the root
evaluates `heuristic` on the initial numbers, and `min(diffs)` raises
`ValueError` when they are empty; every non-root state is nonempty, so the
guard here is the only place that exception can occur. -/
def cdSearch (brojevi : List Int) (cilj : Int) (tolerance : Nat) (fuel : Nat) :
    Option (SOutcome Move) :=
  if brojevi = [] then some .raised
  else do_search (cdAStar cilj tolerance) brojevi fuel

/-- Errors of `find_solution`: `CountDownNumbersException("No path found.")`
or some other exception propagating through. -/
inductive CDErr : Type
  | noPath
  | raised
deriving DecidableEq, Repr

/-- `extract_expression`: scan for the first expression whose `value` equals
`val` (evaluations may raise) and remove it from the collection; reaching
the end without a match leaves `to_extract = None` and the following
`remove` raises. -/
def extract_expression : List Expr → Int → Option (Expr × List Expr)
  | [], _ => none
  | e :: rest, val =>
      match value e with
      | none => none
      | some v =>
          if v = val then some (e, rest)
          else
            match extract_expression rest val with
            | none => none
            | some (found, rest') => some (found, e :: rest')

/-- Strict comparison of Python tuples `(abs_diff, expression)`, where
expressions compare by value (`__lt__`). -/
def diffKeyLt (x y : Nat × Int) : Bool :=
  x.1 < y.1 ∨ (x.1 = y.1 ∧ x.2 < y.2)

/-- Python `min` over the list of `(abs(e.value - cilj), e)` pairs: all
values are evaluated first (a raise propagates), then the leftmost minimal
pair wins; `min` of an empty list raises. -/
def minCloseTo (cilj : Int) (exprs : List Expr) : Option Expr := do
  let keyed ← exprs.mapM fun e => (value e).map fun v => (((v - cilj).natAbs, v), e)
  match keyed with
  | [] => none
  | x :: xs =>
      some (xs.foldl (fun best y => if diffKeyLt y.1 best.1 then y else best) x).2

/-- `moves_to_expression`: replay the move sequence over a collection of
expressions (initially the literal numbers), composing two extracted
expressions per move, then return the remaining expression closest to the
target.  `none` models any raised exception during the replay. -/
def moves_to_expression (brojevi : List Int) (cilj : Int) (moves : List Move) :
    Option Expr := do
  let final ← moves.foldlM
    (fun exprs m => do
      let (n1, o, n2) := m
      let (e1, exprs1) ← extract_expression exprs n1
      let (e2, exprs2) ← extract_expression exprs1 n2
      match compose e1 e2 o with
      | .ok e => some (exprs2 ++ [e])
      | .error _ => none)
    (brojevi.map Expr.lit)
  minCloseTo cilj final

/-- `CountDownNumbers.find_solution`: run the search; a failure result
raises `CountDownNumbersException("No path found.")`; an empty winning path
returns the closest original literal; otherwise the path is replayed into an
expression.  The outer `none` is fuel exhaustion of the model, `some (.error
…)` a raised exception, `some (.ok …)` the returned pair. -/
def find_solution (brojevi : List Int) (cilj : Int) (tolerance : Nat)
    (fuel : Nat) : Option (Except CDErr (List Move × Expr)) :=
  match cdSearch brojevi cilj tolerance fuel with
  | none => none
  | some .raised => some (.error .raised)
  | some .failure => some (.error .noPath)
  | some (.success path) =>
      if path = [] then
        match minCloseTo cilj (brojevi.map Expr.lit) with
        | none => some (.error .raised)
        | some e => some (.ok ([], e))
      else
        match moves_to_expression brojevi cilj path with
        | none => some (.error .raised)
        | some e => some (.ok (path, e))

/-! ### Theorems for the claims -/

/-- C3: for every expression tree, `rep` parenthesizes a compound child iff
(a) the child's operator has strictly lower precedence than the parent's
(`+ -` at 2, `* /` at 3), or (b) the child is the right operand of a `-` or
`/` parent regardless of precedence; and the four rendering examples:
`(3 * 2) + 2 ↦ "3 * 2 + 2"`, `3 * (2 + 2) ↦ "3 * (2 + 2)"`,
`4 - (2 + 2) ↦ "4 - (2 + 2)"`, `(4 - 2) + 2 ↦ "4 - 2 + 2"`. -/
theorem c3_render_parenthesization :
    (∀ (a b : Expr) (o p : Op) (s : Side),
        rep (.node a b o) (some p) (some s) =
          (if precedence o < precedence p ∨ ((p = Op.sub ∨ p = Op.div) ∧ s = Side.r)
           then '(' :: rep (.node a b o) none none ++ [')']
           else rep (.node a b o) none none))
    ∧ render (.node (.node (.lit 3) (.lit 2) .mul) (.lit 2) .add) = "3 * 2 + 2"
    ∧ render (.node (.lit 3) (.node (.lit 2) (.lit 2) .add) .mul) = "3 * (2 + 2)"
    ∧ render (.node (.lit 4) (.node (.lit 2) (.lit 2) .add) .sub) = "4 - (2 + 2)"
    ∧ render (.node (.node (.lit 4) (.lit 2) .sub) (.lit 2) .add) = "4 - 2 + 2" := by
  refine ⟨?_, rfl, rfl, rfl, rfl⟩
  intro a b o p s
  cases p <;> cases s <;> cases o <;>
    simp [rep, precedence, assocOpt, associative]

/-- C6 counterexample: on the state `[2, 2]` the pair of equal values emits
the division move `(2, '/', 2)` twice (both direction guards fire), so the
legal division combination of that pair does not yield exactly one move. -/
theorem c6_duplicate_division_counterexample :
    possible_moves [2, 2] =
      [((2 : Int), Op.mul, (2 : Int)), (2, Op.add, 2), (2, Op.div, 2),
        (2, Op.div, 2), (2, Op.sub, 2)]
    ∧ List.count ((2 : Int), Op.div, (2 : Int)) (possible_moves [2, 2]) = 2 := by
  exact ⟨rfl, rfl⟩

/-- C6 (amended): for every pair of positions, `possible_moves` emits one
block of candidate moves (`pairMoves`): exactly one multiplication and one
addition, exactly one subtraction, which subtracts the smaller operand from
the larger (never negative), and a division move for each direction whose
divisor is nonzero and divides evenly (never a fraction) — and when the two
operands are equal and nonzero, the two division directions coincide and the
identical division move is emitted twice; for unequal operands every legal
combination yields exactly one move. -/
theorem c6_move_generation :
    (∀ l : List Int,
        possible_moves l = (combinations2 l).flatMap fun p => pairMoves p.1 p.2)
    ∧ ∀ n1 n2 : Int,
        (List.countP (fun m => decide (m.2.1 = Op.mul)) (pairMoves n1 n2) = 1
          ∧ (n1, Op.mul, n2) ∈ pairMoves n1 n2)
        ∧ (List.countP (fun m => decide (m.2.1 = Op.add)) (pairMoves n1 n2) = 1
          ∧ (n1, Op.add, n2) ∈ pairMoves n1 n2)
        ∧ (List.countP (fun m => decide (m.2.1 = Op.sub)) (pairMoves n1 n2) = 1
          ∧ ∀ a b, (a, Op.sub, b) ∈ pairMoves n1 n2 →
              b ≤ a ∧ ((a, b) = (n1, n2) ∨ (a, b) = (n2, n1)))
        ∧ (∀ a b, (a, Op.div, b) ∈ pairMoves n1 n2 ↔
            (b ≠ 0 ∧ a % b = 0 ∧ ((a, b) = (n1, n2) ∨ (a, b) = (n2, n1))))
        ∧ (n1 = n2 → n1 ≠ 0 →
            List.count (n1, Op.div, n2) (pairMoves n1 n2) = 2)
        ∧ (n1 ≠ n2 → ∀ a b, List.count (a, Op.div, b) (pairMoves n1 n2) ≤ 1) := by
  refine ⟨fun l => rfl, fun n1 n2 => ⟨⟨?_, ?_⟩, ⟨?_, ?_⟩, ⟨?_, ?_⟩, ?_, ?_, ?_⟩⟩
  · simp only [pairMoves]
    split_ifs <;> simp [List.countP_append, List.countP_cons]
  · simp [pairMoves]
  · simp only [pairMoves]
    split_ifs <;> simp [List.countP_append, List.countP_cons]
  · simp [pairMoves]
  · simp only [pairMoves]
    split_ifs <;> simp [List.countP_append, List.countP_cons]
  · intro a b
    simp only [pairMoves]
    split_ifs <;> simp_all [Prod.ext_iff] <;> (intro h h'; subst h; subst h') <;> omega
  · intro a b
    simp only [pairMoves]
    split_ifs <;> simp_all [Prod.ext_iff] <;> aesop
  · rintro rfl h
    simp [pairMoves, List.count_append, Int.emod_self, h, List.count_cons]
  · intro hne a b
    simp only [pairMoves]
    split_ifs <;> simp_all [List.count_append, List.count_cons, Prod.ext_iff] <;>
      aesop

/-- An `AStarSearch` over the Countdown capabilities with an explicit
`max_depth`, used to exercise the depth-bound branch (the adapter itself
passes no bound). -/
def cdAStarDepth (cilj : Int) (tolerance : Nat) (d : Option Nat) :
    AStar (List Int) Move (List Int) :=
  { cdAStar cilj tolerance with max_depth := d }

/-- The first expanded child of the root `[1, 1]` (via the move `1 * 1`),
which has path depth 1. -/
def c5Child : SNode (List Int) Move :=
  ⟨[1], [((1 : Int), Op.mul, (1 : Int))], 1, 1⟩

/-- C5 counterexample: with `max_depth = 1` configured, the child `c5Child`
of the root `[1, 1]` (an expanded child passing the best-known and
in-frontier checks, with path depth 1 not below the bound) is kept out of
the frontier but IS recorded as best-known for its identity key `[1]` — the
`visited[...] = new` assignment runs outside the depth test — contradicting
the claim that such a child is neither inserted nor recorded. -/
theorem c5_depth_discard_counterexample :
    expand cdProblem (rootNode [1, 1]) =
      some [c5Child, ⟨[2], [(1, Op.add, 1)], 1, 1⟩, ⟨[1], [(1, Op.div, 1)], 1, 1⟩,
        ⟨[1], [(1, Op.div, 1)], 1, 1⟩, ⟨[0], [(1, Op.sub, 1)], 1, 1⟩]
    ∧ processChild (cdAStarDepth 5 0 (some 1)) ⟨[], [[1, 1]], []⟩ c5Child =
        ⟨[], [[1, 1]], [([1], c5Child)]⟩ :=
  ⟨rfl, rfl⟩

/-- C5 (amended): when a nonzero maximum-depth bound `d` is configured and a
child passes the best-known and in-frontier checks, a child of depth `≥ d`
is not inserted into the frontier (nor its key into the frontier set) but is
still recorded as best-known for its identity key, while a child of depth
`< d` is inserted with priority `path_length + heuristic` and recorded as
best-known. -/
theorem c5_depth_bound_branch [DecidableEq ι] (A : AStar σ μ ι)
    (st : SState σ μ ι) (c : SNode σ μ) (d : Nat)
    (hmd : A.max_depth = some d) (hd : 0 < d)
    (hvis : ∀ old, alookup st.visited (A.prob.id c.data) = some old →
      c.path_length < old.path_length)
    (hfs : A.prob.id c.data ∉ st.fset) :
    (d ≤ c.path_depth →
      processChild A st c =
        ⟨st.frontier, st.fset, (A.prob.id c.data, c) :: st.visited⟩)
    ∧ (c.path_depth < d →
      processChild A st c =
        ⟨st.frontier ++ [(sortkey A c, c)], A.prob.id c.data :: st.fset,
          (A.prob.id c.data, c) :: st.visited⟩) := by
  obtain ⟨d', rfl⟩ : ∃ d', d = d' + 1 := ⟨d - 1, (Nat.succ_pred_eq_of_pos hd).symm⟩
  have hskip : bestKnownSkip A st c = false := by
    unfold bestKnownSkip
    cases h : alookup st.visited (A.prob.id c.data) with
    | none => rfl
    | some old => simpa using Nat.not_le.mpr (hvis old h)
  constructor
  · intro hdep
    have hpush : pushAllowed A c = false := by
      unfold pushAllowed
      rw [hmd]
      simpa using Nat.not_lt.mpr hdep
    simp [processChild, hskip, hfs, hpush]
  · intro hdep
    have hpush : pushAllowed A c = true := by
      unfold pushAllowed
      rw [hmd]
      simpa using hdep
    simp [processChild, hskip, hfs, hpush]

/-- C5 witness for the amended theorem: with bound 2, the depth-1 child of
the root `[1, 1]` is pushed with priority `path_length + heuristic` and
recorded as best-known. -/
theorem c5_depth_bound_branch_witness :
    processChild (cdAStarDepth 5 0 (some 2)) ⟨[], [[1, 1]], []⟩ c5Child =
      ⟨[(sortkey (cdAStarDepth 5 0 (some 2)) c5Child, c5Child)],
        [[1], [1, 1]], [([1], c5Child)]⟩ :=
  (c5_depth_bound_branch (cdAStarDepth 5 0 (some 2)) ⟨[], [[1, 1]], []⟩ c5Child 2
    rfl (by decide) (fun old h => by simp [alookup] at h)
    (by decide)).2 (by decide)

/-- C8: when the open frontier is empty, `do_search`'s loop terminates with
the pair `(False, None)` — a failure flag and no path — rather than raising:
the model returns the `failure` outcome for every engine configuration and
every bookkeeping state. -/
theorem c8_empty_frontier_returns_failure [DecidableEq ι] (A : AStar σ μ ι)
    (fuel : Nat) (fs : List ι) (vis : List (ι × SNode σ μ)) :
    doSearchGo A (fuel + 1) ⟨[], fs, vis⟩ = some SOutcome.failure :=
  rfl

/-- C9: whenever the engine's `do_search` returns the failure pair, the
Countdown adapter's `find_solution` raises
`CountDownNumbersException("No path found.")` (`CDErr.noPath`) instead of
returning a distinguished no-path value. -/
theorem c9_failure_raises_exception (brojevi : List Int) (cilj : Int)
    (tolerance fuel : Nat)
    (h : cdSearch brojevi cilj tolerance fuel = some SOutcome.failure) :
    find_solution brojevi cilj tolerance fuel = some (.error CDErr.noPath) := by
  simp [find_solution, h]

/-- C9 witness: on numbers `[1, 1]`, target 500, tolerance 0 the search
exhausts its frontier, and `find_solution` raises `CDErr.noPath`. -/
theorem c9_failure_raises_exception_witness :
    find_solution [1, 1] 500 0 10 = some (.error CDErr.noPath) :=
  c9_failure_raises_exception [1, 1] 500 0 10 (by decide)

set_option maxRecDepth 40000 in
/-- C1: for `b ≠ 0` with `a % b == 0`, composing `literal(a)` and
`literal(b)` with `/` succeeds, and `+ - *` evaluate exactly; but the claim
that `value()` equals the exact quotient for integers of any magnitude fails:
the `/` branch computes `int(v1 / v2)` through a binary64 float, so at
`a = 2^53 + 1 = 9007199254740993`, `b = 1` the code yields
`9007199254740992`, not the exact quotient `a`. -/
theorem c1_division_value_float_rounding :
    (∀ a b : Int, b ≠ 0 → a % b = 0 →
        compose (.lit a) (.lit b) Op.div = .ok (.node (.lit a) (.lit b) Op.div))
    ∧ (∀ a b : Int, value (.node (.lit a) (.lit b) Op.add) = some (a + b))
    ∧ (∀ a b : Int, value (.node (.lit a) (.lit b) Op.sub) = some (a - b))
    ∧ (∀ a b : Int, value (.node (.lit a) (.lit b) Op.mul) = some (a * b))
    ∧ value (.node (.lit 9007199254740993) (.lit 1) Op.div) =
        some 9007199254740992 := by
  refine ⟨?_, fun a b => rfl, fun a b => rfl, fun a b => rfl, by decide⟩
  intro a b hb hmod
  simp [compose, value, hb, hmod]

/-- C1 witness: the division part applied at `a = 6`, `b = 3`. -/
theorem c1_division_value_float_rounding_witness :
    compose (.lit 6) (.lit 3) Op.div = .ok (.node (.lit 6) (.lit 3) Op.div) :=
  c1_division_value_float_rounding.1 6 3 (by decide) (by decide)

set_option maxRecDepth 40000 in
/-- C4: for expressions `l`, `r` with values and `r.value ≠ 0`, composing
with `/` raises `InvalidExpression` iff `l.value % r.value ≠ 0` and succeeds
otherwise, at construction time; but evaluating an already-constructed
division node CAN raise: at `l = literal(2^2200)`, `r = literal(2^1000)`
construction succeeds (the quotient is exact) while `value()` raises
`OverflowError` converting the quotient `2^1200` to a float. -/
theorem c4_construction_check_and_overflow :
    (∀ (l r : Expr) (v1 v2 : Int), value l = some v1 → value r = some v2 →
        v2 ≠ 0 →
        (v1 % v2 ≠ 0 → compose l r Op.div = .error Err.invalidExpression)
        ∧ (v1 % v2 = 0 → compose l r Op.div = .ok (.node l r Op.div)))
    ∧ compose (.lit ((pow2 2200 : Nat) : Int)) (.lit ((pow2 1000 : Nat) : Int))
        Op.div =
        .ok (.node (.lit ((pow2 2200 : Nat) : Int))
          (.lit ((pow2 1000 : Nat) : Int)) Op.div)
    ∧ value (.node (.lit ((pow2 2200 : Nat) : Int))
        (.lit ((pow2 1000 : Nat) : Int)) Op.div) = none := by
  refine ⟨?_, rfl, rfl⟩
  intro l r v1 v2 h1 h2 hz
  constructor <;> intro hmod <;> simp [compose, h1, h2, hz, hmod]

/-- C4 witness: the construction-time check applied at `l = literal(6)`,
`r = literal(4)`. -/
theorem c4_construction_check_and_overflow_witness :
    compose (.lit 6) (.lit 4) Op.div = .error Err.invalidExpression :=
  (c4_construction_check_and_overflow.1 (.lit 6) (.lit 4) 6 4 rfl rfl
    (by decide)).1 (by decide)

/-- C6 witness: the per-pair characterization applied at the pair `(3, 6)`
(unequal operands: every division move occurs at most once). -/
theorem c6_move_generation_witness :
    List.count ((6 : Int), Op.div, (3 : Int)) (pairMoves 3 6) ≤ 1 :=
  (c6_move_generation.2 3 6).2.2.2.2.2 (by decide) 6 3

/-! ### Termination of the Countdown search (C7)

Every applied move replaces two numbers by one, so the full expansion tree
of a state is finite; its node count is a fuel bound for `do_search`. -/

/-- Size of the full expansion tree of a state, with fuel (children have
strictly shorter number lists, so fuel `s.length` suffices). -/
def treeCountF : Nat → List Int → Nat
  | 0, _ => 1
  | f + 1, s =>
      1 + ((possible_moves s).map fun m =>
            match apply_move s m with
            | some s' => treeCountF f s'
            | none => 0).sum

/-- Size of the full expansion tree of a state. -/
def treeCount (s : List Int) : Nat :=
  treeCountF s.length s

/-- A successful `apply_move` shrinks the number list by exactly one. -/
theorem apply_move_length {s s' : List Int} {m : Move}
    (h : apply_move s m = some s') : s'.length + 1 = s.length := by
  obtain ⟨n1, o, n2⟩ := m
  simp only [apply_move] at h
  by_cases h1 : n1 ∈ s
  · rw [if_pos h1] at h
    by_cases h2 : n2 ∈ s.erase n1
    · rw [if_pos h2] at h
      have hlen1 : (s.erase n1).length = s.length - 1 := List.length_erase_of_mem h1
      have hlen2 : ((s.erase n1).erase n2).length = (s.erase n1).length - 1 :=
        List.length_erase_of_mem h2
      have hpos1 : 0 < s.length := List.length_pos_of_mem h1
      have hpos2 : 0 < (s.erase n1).length := List.length_pos_of_mem h2
      cases hr : get_result n1 n2 o with
      | none => rw [hr] at h; exact Option.noConfusion h
      | some r =>
          rw [hr] at h
          simp only [Option.map_some'] at h
          cases h
          simp only [List.length_append, List.length_cons, List.length_nil]
          omega
    · rw [if_neg h2] at h; exact Option.noConfusion h
  · rw [if_neg h1] at h; exact Option.noConfusion h

/-- `treeCountF` does not depend on the fuel, as long as it covers the list
length. -/
theorem treeCountF_congr : ∀ f f' (s : List Int), s.length ≤ f →
    s.length ≤ f' → treeCountF f s = treeCountF f' s := by
  intro f
  induction f with
  | zero =>
      intro f' s hf _
      have hs : s = [] := List.length_eq_zero.mp (Nat.le_zero.mp hf)
      subst hs
      cases f' <;> simp [treeCountF, possible_moves, combinations2]
  | succ f ih =>
      intro f' s hf hf'
      cases f' with
      | zero =>
          have hs : s = [] := List.length_eq_zero.mp (Nat.le_zero.mp hf')
          subst hs
          simp [treeCountF, possible_moves, combinations2]
      | succ f'' =>
          simp only [treeCountF]
          congr 1
          apply congrArg
          apply List.map_congr_left
          intro m _
          cases hap : apply_move s m with
          | none => rfl
          | some s' =>
              have := apply_move_length hap
              exact ih f'' s' (by omega) (by omega)

/-- The defining recurrence of `treeCount`. -/
theorem treeCount_unfold (s : List Int) :
    treeCount s =
      1 + ((possible_moves s).map fun m =>
            match apply_move s m with
            | some s' => treeCount s'
            | none => 0).sum := by
  cases hs : s.length with
  | zero =>
      have : s = [] := List.length_eq_zero.mp hs
      subst this
      simp [treeCount, treeCountF, possible_moves, combinations2]
  | succ k =>
      unfold treeCount
      rw [hs]
      simp only [treeCountF]
      congr 1
      apply congrArg
      apply List.map_congr_left
      intro m _
      cases hap : apply_move s m with
      | none => rfl
      | some s' =>
          have := apply_move_length hap
          exact treeCountF_congr k s'.length s' (by omega) le_rfl

/-- A successful expansion's children account for all of the parent's tree
except the parent itself. -/
theorem expand_treeCount {nd : SNode (List Int) Move}
    {cs : List (SNode (List Int) Move)}
    (h : expand cdProblem nd = some cs) :
    ((cs.map fun c => treeCount c.data).sum) + 1 ≤ treeCount nd.data := by
  have h2 : ((possible_moves nd.data).mapM fun m =>
      (apply_move nd.data m).map fun s' =>
        (⟨s', nd.move_chain ++ [m], cdProblem.path_cost s' + nd.path_length,
          nd.path_depth + 1⟩ : SNode (List Int) Move)) = some cs := h
  have key : ∀ (ms : List Move) (cs' : List (SNode (List Int) Move)),
      (ms.mapM fun m => (apply_move nd.data m).map fun s' =>
        (⟨s', nd.move_chain ++ [m], cdProblem.path_cost s' + nd.path_length,
          nd.path_depth + 1⟩ : SNode (List Int) Move)) = some cs' →
      (cs'.map fun c => treeCount c.data) =
        ms.map fun m =>
          match apply_move nd.data m with
          | some s' => treeCount s'
          | none => 0 := by
    intro ms
    induction ms with
    | nil => intro cs' h'; simp only [List.mapM_nil, pure, Option.some.injEq] at h'; subst h'; rfl
    | cons m ms ih =>
        intro cs' h'
        rw [List.mapM_cons] at h'
        cases hap : apply_move nd.data m with
        | none => rw [hap] at h'; simp at h'
        | some s' =>
            rw [hap] at h'
            cases hrest : ms.mapM (fun m => (apply_move nd.data m).map fun s' =>
                (⟨s', nd.move_chain ++ [m], cdProblem.path_cost s' + nd.path_length,
                  nd.path_depth + 1⟩ : SNode (List Int) Move)) with
            | none => rw [hrest] at h'; simp at h'
            | some cs'' =>
                rw [hrest] at h'
                simp at h'
                subst h'
                simp only [List.map_cons, hap]
                exact congrArg _ (ih cs'' hrest)
  rw [treeCount_unfold nd.data, ← key _ _ h2]
  omega

/-- `popMin` of a nonempty list always returns an element. -/
theorem popMin_ne_none (lt : α → α → Bool) (a : α) (as : List α) :
    popMin lt (a :: as) ≠ none := by
  simp only [popMin]
  cases popMin lt as with
  | none => simp
  | some pr =>
      obtain ⟨m, rest⟩ := pr
      dsimp only
      split <;> simp

/-- `popMin` splits its input into the returned element and the rest. -/
theorem popMin_perm (lt : α → α → Bool) :
    ∀ (l : List α) (x : α) (r : List α), popMin lt l = some (x, r) →
      l.Perm (x :: r) := by
  intro l
  induction l with
  | nil => intro x r h; exact Option.noConfusion h
  | cons a as ih =>
      intro x r h
      cases hrec : popMin lt as with
      | none =>
          have has : as = [] := by
            cases as with
            | nil => rfl
            | cons b bs => exact absurd hrec (popMin_ne_none lt b bs)
          subst has
          simp only [popMin] at h
          cases h
          exact List.Perm.refl _
      | some pr =>
          obtain ⟨m, rest⟩ := pr
          have hh : popMin lt (a :: as) =
              if lt m a then some (m, a :: rest) else some (a, as) := by
            simp only [popMin, hrec]
          rw [hh] at h
          by_cases hlt : lt m a = true
          · rw [if_pos hlt] at h
            cases h
            exact ((ih _ _ hrec).cons a).trans (List.Perm.swap _ _ _)
          · rw [if_neg hlt] at h
            cases h
            exact List.Perm.refl _

/-- `processChild` either leaves the frontier unchanged or appends the one
new entry. -/
theorem processChild_frontier [DecidableEq ι] (A : AStar σ μ ι)
    (st : SState σ μ ι) (c : SNode σ μ) :
    (processChild A st c).frontier = st.frontier ∨
      (processChild A st c).frontier = st.frontier ++ [(sortkey A c, c)] := by
  unfold processChild
  split_ifs
  · exact Or.inl rfl
  · exact Or.inl rfl
  · exact Or.inr rfl
  · exact Or.inl rfl

/-- Folding `processChild` over a child list grows the frontier measure by at
most the children's total measure. -/
theorem foldl_processChild_sum [DecidableEq ι] (A : AStar σ μ ι)
    (meas : σ → Nat) :
    ∀ (cs : List (SNode σ μ)) (st : SState σ μ ι),
      (((cs.foldl (processChild A) st).frontier.map fun e => meas e.2.data).sum)
        ≤ ((st.frontier.map fun e => meas e.2.data).sum)
          + ((cs.map fun c => meas c.data).sum) := by
  intro cs
  induction cs with
  | nil => intro st; simp
  | cons c cs ih =>
      intro st
      simp only [List.foldl_cons, List.map_cons, List.sum_cons]
      refine le_trans (ih (processChild A st c)) ?_
      rcases processChild_frontier A st c with hf | hf <;> rw [hf]
      · simp
      · simp
        omega

/-- Fuel sufficiency for `do_search`: any measure on states that strictly
dominates the total measure of every successful expansion bounds the number
of loop iterations. -/
theorem doSearchGo_total [DecidableEq ι] (A : AStar σ μ ι) (meas : σ → Nat)
    (hexp : ∀ (nd : SNode σ μ) cs, expand A.prob nd = some cs →
      ((cs.map fun c => meas c.data).sum) + 1 ≤ meas nd.data) :
    ∀ (fuel : Nat) (st : SState σ μ ι),
      ((st.frontier.map fun e => meas e.2.data).sum) < fuel →
      ∃ r, doSearchGo A fuel st = some r := by
  intro fuel
  induction fuel with
  | zero => intro st h; exact absurd h (by omega)
  | succ fuel ih =>
      intro st hsum
      cases hpop : popMin (entryLt A.prob) st.frontier with
      | none => exact ⟨.failure, by simp [doSearchGo, hpop]⟩
      | some pr =>
          obtain ⟨⟨p, cur⟩, rest⟩ := pr
          by_cases hg : A.is_goal cur.data
          · exact ⟨.success cur.move_chain, by simp [doSearchGo, hpop, hg]⟩
          · cases hex : expand A.prob cur with
            | none => exact ⟨.raised, by simp [doSearchGo, hpop, hg, hex]⟩
            | some cs =>
                have hperm : st.frontier.Perm ((p, cur) :: rest) :=
                  popMin_perm _ _ _ _ hpop
                have hsplit :
                    ((st.frontier.map fun e => meas e.2.data).sum) =
                      meas cur.data + ((rest.map fun e => meas e.2.data).sum) := by
                  have := (hperm.map fun e => meas e.2.data).sum_eq
                  simpa using this
                have hcs := hexp cur cs hex
                have hrec := foldl_processChild_sum A meas cs
                  { st with frontier := rest }
                obtain ⟨r, hr⟩ := ih
                  (cs.foldl (processChild A) { st with frontier := rest })
                  (by simp only at hrec ⊢; omega)
                exact ⟨r, by simp only [doSearchGo, hpop, hg, hex]; exact hr⟩

/-- The fuel that makes the Countdown search run to completion. -/
def cdFuel (brojevi : List Int) : Nat :=
  treeCount brojevi + 1

set_option maxRecDepth 100000 in
/-- C7: the Countdown-configured search always terminates — with fuel
`cdFuel` the loop always reaches an outcome — but the claim that it always
returns success or failure is wrong: applying a division move converts the
quotient to a float (`int(n1 / n2)` in `get_result`), which raises
`OverflowError` once the quotient reaches `2^1024`; on numbers
`[2^1100, 2]` with target 0 the very first expansion raises instead of
returning a result. -/
theorem c7_terminates_but_can_raise :
    (∀ (brojevi : List Int) (cilj : Int) (tolerance : Nat),
        ∃ r, cdSearch brojevi cilj tolerance (cdFuel brojevi) = some r)
    ∧ cdSearch [((pow2 1100 : Nat) : Int), 2] 0 0 1 = some SOutcome.raised := by
  constructor
  · intro brojevi cilj tolerance
    unfold cdSearch
    by_cases hb : brojevi = []
    · exact ⟨.raised, by rw [if_pos hb]⟩
    · rw [if_neg hb]
      unfold do_search
      exact doSearchGo_total (cdAStar cilj tolerance) treeCount
        (fun nd cs h => expand_treeCount h) (cdFuel brojevi) _
        (by dsimp only [rootNode, cdFuel]; simp)
  · rfl

/-! ### Round-tripping `parse (render e)` (C2)

The development below relates the rendered character stream of an
expression to its token stream (`toks`), then the shunting-yard machine on
that token stream to a structural "spine run" (`spineRun`), and finally the
value of the reconstructed tree to the value of the original tree. -/

/-- The parenthesization condition of `rep` for an operator node. -/
def wrapNode (o : Op) (parentOp : Option Op) (side : Option Side) : Bool :=
  decide ((parentOp.isSome ∧ precedence (parentOp.getD o) > precedence o) ∨
    (¬ assocOpt parentOp ∧ side = some Side.r))

/-- `rep` on a node, written with the single wrap condition. -/
theorem rep_node_eq (a b : Expr) (o : Op) (p : Option Op) (s : Option Side) :
    rep (.node a b o) p s =
      (if wrapNode o p s then
        '(' :: (rep a (some o) (some .l) ++ [' ', opChar o, ' ']
          ++ rep b (some o) (some .r)) ++ [')']
      else rep a (some o) (some .l) ++ [' ', opChar o, ' ']
        ++ rep b (some o) (some .r)) := by
  simp only [rep, wrapNode]
  by_cases h1 : p.isSome ∧ precedence (p.getD o) > precedence o <;>
    by_cases h2 : ¬ assocOpt p ∧ s = some Side.r <;>
      simp [h1, h2]

/-- The token stream produced by tokenizing `rep e p s` (for expressions
with nonnegative literals). -/
def toks : Expr → Option Op → Option Side → List Tok
  | .lit n, _, _ => [.num n.natAbs]
  | .node a b o, p, s =>
      if wrapNode o p s then
        [Tok.lparen] ++ (toks a (some o) (some .l) ++ [Tok.op o]
          ++ toks b (some o) (some .r)) ++ [Tok.rparen]
      else toks a (some o) (some .l) ++ [Tok.op o] ++ toks b (some o) (some .r)

/-- The first character, if any, is not a digit. -/
def headNondigit : List Char → Prop
  | [] => True
  | c :: _ => c.isDigit = false

/-- Every character of `natDigitsF` is a decimal digit. -/
theorem natDigitsF_digits : ∀ f n, ∀ c ∈ natDigitsF f n, c.isDigit = true := by
  intro f
  induction f with
  | zero => intro n c hc; simp [natDigitsF] at hc
  | succ f ih =>
      intro n c hc
      by_cases hn : n = 0
      · simp [natDigitsF, hn] at hc
      · rw [natDigitsF, if_neg hn] at hc
        rcases List.mem_append.mp hc with h | h
        · exact ih _ c h
        · have hd : n % 10 < 10 := Nat.mod_lt _ (by omega)
          rcases List.mem_singleton.mp h with rfl
          interval_cases h : n % 10 <;> decide

/-- Every character of `natChars` is a decimal digit. -/
theorem natChars_digits (n : Nat) : ∀ c ∈ natChars n, c.isDigit = true := by
  intro c hc
  unfold natChars at hc
  split at hc
  · rcases List.mem_singleton.mp hc with rfl; decide
  · exact natDigitsF_digits _ _ c hc

/-- `natChars` is never empty. -/
theorem natChars_ne_nil (n : Nat) : natChars n ≠ [] := by
  unfold natChars
  split
  · simp
  · rename_i hn
    cases hf : n with
    | zero => exact absurd hf hn
    | succ f =>
        rw [natDigitsF]
        simp

/-- Folding the tokenizer's digit accumulation over the digits of `n`. -/
theorem foldl_natDigitsF : ∀ f n a, n ≤ f →
    List.foldl (fun a c => a * 10 + (c.toNat - 48)) a (natDigitsF f n) =
      a * 10 ^ (natDigitsF f n).length + n := by
  intro f
  induction f with
  | zero =>
      intro n a hn
      have : n = 0 := Nat.le_zero.mp hn
      simp [natDigitsF, this]
  | succ f ih =>
      intro n a hn
      by_cases h0 : n = 0
      · simp [natDigitsF, h0]
      · rw [natDigitsF, if_neg h0]
        have hrec := ih (n / 10) a (by omega)
        have hd : (digitChar (n % 10)).toNat - 48 = n % 10 := by
          have : n % 10 < 10 := Nat.mod_lt _ (by omega)
          interval_cases h : n % 10 <;> decide
        rw [List.foldl_append, hrec]
        simp only [List.foldl_cons, List.foldl_nil, hd, List.length_append,
          List.length_cons, List.length_nil]
        rw [pow_succ, ← mul_assoc]
        generalize a * (10 : Nat) ^ (natDigitsF f (n / 10)).length = M
        omega

/-- `int` of the decimal rendering: `charsToNat (natChars n) = n`. -/
theorem charsToNat_natChars (n : Nat) : charsToNat (natChars n) = n := by
  unfold natChars charsToNat
  split
  · simp_all [List.foldl]
  · simpa using foldl_natDigitsF n n 0 le_rfl

theorem except_map_map (f : α → β) (g : γ → α) (x : Except ε γ) :
    f <$> (g <$> x) = (fun y => f (g y)) <$> x := by
  cases x <;> rfl

/-- Digit characters accumulate into the tokenizer's number buffer. -/
theorem tokenizeGo_digits : ∀ (ds : List Char), (∀ c ∈ ds, c.isDigit = true) →
    ∀ (rest buf : List Char),
      tokenizeGo (ds ++ rest) buf = tokenizeGo rest (buf ++ ds) := by
  intro ds
  induction ds with
  | nil => intro _ rest buf; simp
  | cons c cs ih =>
      intro h rest buf
      have hc : c.isDigit = true := h c (List.mem_cons_self _ _)
      rw [List.cons_append, tokenizeGo, if_pos hc,
        ih (fun x hx => h x (List.mem_cons_of_mem _ hx)) rest (buf ++ [c]),
        List.append_assoc]
      rfl

/-- When the next character is not a digit (or the input ends), a pending
number buffer contributes exactly its flushed token. -/
theorem tokenizeGo_flush : ∀ (rest buf : List Char), headNondigit rest →
    tokenizeGo rest buf = (fun ts => flushNum buf ++ ts) <$> tokenizeGo rest [] := by
  intro rest buf h
  cases rest with
  | nil => simp [tokenizeGo, flushNum]
  | cons c cs =>
      have hc : c.isDigit = false := h
      rw [tokenizeGo, tokenizeGo]
      simp only [hc, Bool.false_eq_true, if_false]
      split_ifs <;>
        (cases tokenizeGo cs [] <;> simp [flushNum, Except.map])

theorem tok_step_space (cs : List Char) :
    tokenizeGo (' ' :: cs) [] = (fun ts => ts) <$> tokenizeGo cs [] := rfl

theorem tok_step_lparen (cs : List Char) :
    tokenizeGo ('(' :: cs) [] = (fun ts => Tok.lparen :: ts) <$> tokenizeGo cs [] := rfl

theorem tok_step_rparen (cs : List Char) :
    tokenizeGo (')' :: cs) [] = (fun ts => Tok.rparen :: ts) <$> tokenizeGo cs [] := rfl

theorem tok_step_op (o : Op) (cs : List Char) :
    tokenizeGo (opChar o :: cs) [] =
      (fun ts => Tok.op o :: ts) <$> tokenizeGo cs [] := by
  cases o <;> rfl

/-- Tokenizing the rendering of an expression with nonnegative literals
yields its token stream `toks`, for any continuation that does not start
with a digit. -/
theorem tokenize_rep : ∀ (e : Expr), nonnegLits e →
    ∀ (p : Option Op) (s : Option Side) (rest : List Char), headNondigit rest →
      tokenizeGo (rep e p s ++ rest) [] =
        (fun ts => toks e p s ++ ts) <$> tokenizeGo rest [] := by
  intro e
  induction e with
  | lit n =>
      intro hnn p s rest hrest
      have hnn' : (0 : Int) ≤ n := hnn
      have hrep : rep (.lit n) p s = natChars n.natAbs := by
        simp [rep, intChars, Int.not_lt.mpr hnn']
      rw [hrep, tokenizeGo_digits _ (natChars_digits _) rest [],
        tokenizeGo_flush rest _ hrest]
      have hfl : flushNum ([] ++ natChars n.natAbs) = [Tok.num n.natAbs] := by
        simp [flushNum, natChars_ne_nil, charsToNat_natChars]
      rw [hfl]
      rfl
  | node a b o iha ihb =>
      intro hnn p s rest hrest
      have ha : nonnegLits a := hnn.1
      have hb : nonnegLits b := hnn.2
      have hcore : ∀ (rest' : List Char), headNondigit rest' →
          tokenizeGo ((rep a (some o) (some .l) ++ [' ', opChar o, ' ']
            ++ rep b (some o) (some .r)) ++ rest') [] =
          (fun ts => (toks a (some o) (some .l) ++ [Tok.op o]
            ++ toks b (some o) (some .r)) ++ ts) <$> tokenizeGo rest' [] := by
        intro rest' hr'
        have e1 : (rep a (some o) (some .l) ++ [' ', opChar o, ' ']
            ++ rep b (some o) (some .r)) ++ rest'
            = rep a (some o) (some .l) ++ (' ' :: opChar o :: ' '
              :: (rep b (some o) (some .r) ++ rest')) := by
          simp
        rw [e1, iha ha (some o) (some .l) _ (by constructor),
          tok_step_space, tok_step_op]
        have e2 : tokenizeGo (' ' :: (rep b (some o) (some .r) ++ rest')) [] =
            (fun ts => (toks b (some o) (some .r)) ++ ts) <$>
              tokenizeGo rest' [] := by
          rw [tok_step_space, ihb hb (some o) (some .r) rest' hr']
          cases tokenizeGo rest' [] <;> rfl
        rw [e2]
        cases tokenizeGo rest' [] <;> simp
      rw [rep_node_eq]
      by_cases hw : wrapNode o p s = true
      · rw [if_pos hw]
        have e2 : ('(' :: (rep a (some o) (some .l) ++ [' ', opChar o, ' ']
            ++ rep b (some o) (some .r)) ++ [')']) ++ rest
            = '(' :: ((rep a (some o) (some .l) ++ [' ', opChar o, ' ']
              ++ rep b (some o) (some .r)) ++ (')' :: rest)) := by simp
        rw [e2, tok_step_lparen, hcore (')' :: rest) (by constructor),
          tok_step_rparen]
        simp only [toks, hw, if_pos]
        cases tokenizeGo rest [] <;> simp
      · rw [if_neg hw, hcore rest hrest]
        simp only [toks, hw]
        cases tokenizeGo rest [] <;> simp

/-! #### The spine abstraction of the shunting-yard machine

While the machine processes the (unparenthesized) token stream of an
expression, its operator stack above the nearest `'('` consists of pending
operators, each with the already-built tree of its left operand.  That
pending list is `List (Expr × Op)` (top first); `collapseUpto p` performs
the pops triggered by an incoming operator of precedence `p`, and
`spineRun` simulates the whole machine run over `toks e p s`, returning the
remaining pending list, the last built atom, and the emitted output-queue
items. -/

/-- Pop pending operators of precedence `≥ p`, building nodes and emitting
the popped operators. -/
def collapseUpto (p : Nat) : List (Expr × Op) → Expr →
    List (Expr × Op) × Expr × List Item
  | [], v => ([], v, [])
  | (a, o) :: rest, v =>
      if p ≤ precedence o then
        let r := collapseUpto p rest (.node a v o)
        (r.1, r.2.1, .op o :: r.2.2)
      else ((a, o) :: rest, v, [])

/-- The machine run over `toks e p s` from pending list `L`: final pending
list, last built atom, and emitted items. -/
def spineRun : List (Expr × Op) → Expr → Option Op → Option Side →
    List (Expr × Op) × Expr × List Item
  | L, .lit n, _, _ => (L, .lit (n.natAbs : Int), [.num n.natAbs])
  | L, .node a b o, p, s =>
      if wrapNode o p s then
        let r1 := spineRun [] a (some o) (some .l)
        let r2 := collapseUpto (precedence o) r1.1 r1.2.1
        let r3 := spineRun ((r2.2.1, o) :: r2.1) b (some o) (some .r)
        let r4 := collapseUpto 0 r3.1 r3.2.1
        (L, r4.2.1, r1.2.2 ++ r2.2.2 ++ r3.2.2 ++ r4.2.2)
      else
        let r1 := spineRun L a (some o) (some .l)
        let r2 := collapseUpto (precedence o) r1.1 r1.2.1
        let r3 := spineRun ((r2.2.1, o) :: r2.1) b (some o) (some .r)
        (r3.1, r3.2.1, r1.2.2 ++ r2.2.2 ++ r3.2.2)

/-- The operator-stack image of a pending list. -/
def stkOf (L : List (Expr × Op)) : List SE :=
  L.map fun pr => SE.op pr.2

/-- A stack fragment that blocks pops: empty, or starting with `'('`. -/
def Bar : List SE → Prop
  | [] => True
  | .lparen :: _ => True
  | .op _ :: _ => False

/-- `popOps` acts on `stkOf L ++ B` exactly as `collapseUpto` acts on `L`. -/
theorem popOps_collapse (o : Op) (v : Expr) :
    ∀ (L : List (Expr × Op)) (out : List Item) (B : List SE), Bar B →
      popOps o (stkOf L ++ B) out =
        (stkOf (collapseUpto (precedence o) L v).1 ++ B,
          out ++ (collapseUpto (precedence o) L v).2.2) := by
  intro L
  induction L generalizing v with
  | nil =>
      intro out B hB
      cases B with
      | nil => simp [popOps, stkOf, collapseUpto]
      | cons se B' =>
          cases se with
          | op o2 => exact absurd hB (by simp [Bar])
          | lparen => simp [popOps, stkOf, collapseUpto]
  | cons pr L ih =>
      intro out B hB
      obtain ⟨a, o2⟩ := pr
      by_cases hp : precedence o ≤ precedence o2
      · rw [show stkOf ((a, o2) :: L) ++ B = SE.op o2 :: (stkOf L ++ B) from rfl]
        rw [popOps, if_pos hp]
        rw [ih (Expr.node a v o2) (out ++ [Item.op o2]) B hB]
        rw [collapseUpto, if_pos hp]
        simp
      · rw [show stkOf ((a, o2) :: L) ++ B = SE.op o2 :: (stkOf L ++ B) from rfl]
        rw [popOps, if_neg hp, collapseUpto, if_neg hp]
        simp [stkOf]

/-- `popToParen` pops the whole pending list (as `collapseUpto 0` does) and
consumes the `'('`. -/
theorem popToParen_collapse (v : Expr) :
    ∀ (L : List (Expr × Op)) (out : List Item) (S : List SE),
      popToParen (stkOf L ++ SE.lparen :: S) out =
        some (S, out ++ (collapseUpto 0 L v).2.2) := by
  intro L
  induction L generalizing v with
  | nil => intro out S; simp [popToParen, stkOf, collapseUpto]
  | cons pr L ih =>
      intro out S
      obtain ⟨a, o2⟩ := pr
      rw [show stkOf ((a, o2) :: L) ++ SE.lparen :: S
          = SE.op o2 :: (stkOf L ++ SE.lparen :: S) from rfl]
      rw [popToParen]
      rw [ih (Expr.node a v o2) (out ++ [Item.op o2]) S]
      rw [collapseUpto, if_pos (Nat.zero_le _)]
      simp

/-- `drain` pops the whole pending list, emitting what `collapseUpto 0`
emits. -/
theorem drain_collapse (v : Expr) :
    ∀ (L : List (Expr × Op)) (out : List Item),
      drain (stkOf L) out = .ok (out ++ (collapseUpto 0 L v).2.2) := by
  intro L
  induction L generalizing v with
  | nil => intro out; simp [drain, stkOf, collapseUpto]
  | cons pr L ih =>
      intro out
      obtain ⟨a, o2⟩ := pr
      rw [show stkOf ((a, o2) :: L) = SE.op o2 :: stkOf L from rfl]
      rw [drain]
      rw [ih (Expr.node a v o2) (out ++ [Item.op o2])]
      rw [collapseUpto, if_pos (Nat.zero_le _)]
      simp

theorem syGo_num_step (n : Nat) (ts : List Tok) (out : List Item)
    (stk : List SE) :
    syGo (Tok.num n :: ts) out stk = syGo ts (out ++ [.num n]) stk := by
  rw [syGo]

theorem syGo_lparen_step (ts : List Tok) (out : List Item) (stk : List SE) :
    syGo (Tok.lparen :: ts) out stk = syGo ts out (SE.lparen :: stk) := by
  rw [syGo]

theorem syGo_op_step (o : Op) (ts : List Tok) (out : List Item)
    (stk stk' : List SE) (out' : List Item)
    (h : popOps o stk out = (stk', out')) :
    syGo (Tok.op o :: ts) out stk = syGo ts out' (SE.op o :: stk') := by
  rw [syGo, h]

theorem syGo_rparen_step (ts : List Tok) (out : List Item)
    (stk stk' : List SE) (out' : List Item)
    (h : popToParen stk out = some (stk', out')) :
    syGo (Tok.rparen :: ts) out stk = syGo ts out' stk' := by
  rw [syGo, h]

/-- Unfolding `spineRun` on an unparenthesized node. -/
theorem spineRun_nowrap {a b : Expr} {o : Op} {p : Option Op}
    {s : Option Side} (hw : wrapNode o p s = false)
    (L L1 L2 L3 : List (Expr × Op)) (va vl vr : Expr)
    (q1 q2 q3 : List Item)
    (h1 : spineRun L a (some o) (some .l) = (L1, va, q1))
    (h2 : collapseUpto (precedence o) L1 va = (L2, vl, q2))
    (h3 : spineRun ((vl, o) :: L2) b (some o) (some .r) = (L3, vr, q3)) :
    spineRun L (.node a b o) p s = (L3, vr, q1 ++ q2 ++ q3) := by
  rw [spineRun, hw]
  simp only [Bool.false_eq_true, if_false, h1, h2, h3]

/-- Unfolding `spineRun` on a parenthesized node. -/
theorem spineRun_wrap {a b : Expr} {o : Op} {p : Option Op}
    {s : Option Side} (hw : wrapNode o p s = true)
    (L L1 L2 L3 L4 : List (Expr × Op)) (va vl vr vfin : Expr)
    (q1 q2 q3 q4 : List Item)
    (h1 : spineRun [] a (some o) (some .l) = (L1, va, q1))
    (h2 : collapseUpto (precedence o) L1 va = (L2, vl, q2))
    (h3 : spineRun ((vl, o) :: L2) b (some o) (some .r) = (L3, vr, q3))
    (h4 : collapseUpto 0 L3 vr = (L4, vfin, q4)) :
    spineRun L (.node a b o) p s = (L, vfin, q1 ++ q2 ++ q3 ++ q4) := by
  rw [spineRun, hw]
  simp only [if_true, h1, h2, h3, h4]

/-- Unfolding `toks` on a node. -/
theorem toks_node (a b : Expr) (o : Op) (p : Option Op) (s : Option Side) :
    toks (.node a b o) p s =
      (if wrapNode o p s then
        [Tok.lparen] ++ (toks a (some o) (some .l) ++ [Tok.op o]
          ++ toks b (some o) (some .r)) ++ [Tok.rparen]
      else toks a (some o) (some .l) ++ [Tok.op o]
        ++ toks b (some o) (some .r)) := by
  rw [toks]

/-- Simulation: the shunting-yard loop on `toks e p s` behaves as
`spineRun`. -/
theorem syGo_spine : ∀ (e : Expr) (p : Option Op) (s : Option Side)
    (L : List (Expr × Op)) (ts : List Tok) (out : List Item) (B : List SE),
    Bar B →
    syGo (toks e p s ++ ts) out (stkOf L ++ B) =
      syGo ts (out ++ (spineRun L e p s).2.2)
        (stkOf (spineRun L e p s).1 ++ B) := by
  intro e
  induction e with
  | lit n =>
      intro p s L ts out B hB
      rw [show toks (.lit n) p s = [Tok.num n.natAbs] from rfl,
        List.cons_append, List.nil_append, syGo_num_step]
      rfl
  | node a b o iha ihb =>
      intro p s L ts out B hB
      rcases h2gen : collapseUpto (precedence o)
        (spineRun (if wrapNode o p s then [] else L) a (some o) (some .l)).1
        (spineRun (if wrapNode o p s then [] else L) a (some o) (some .l)).2.1
        with ⟨L2, vl, q2⟩
      rcases h1 : spineRun (if wrapNode o p s then [] else L) a (some o)
        (some .l) with ⟨L1, va, q1⟩
      rw [h1] at h2gen
      rcases h3 : spineRun ((vl, o) :: L2) b (some o) (some .r)
        with ⟨L3, vr, q3⟩
      by_cases hw : wrapNode o p s = true
      · rw [if_pos hw] at h1
        rcases h4 : collapseUpto 0 L3 vr with ⟨L4, vfin, q4⟩
        rw [spineRun_wrap hw L L1 L2 L3 L4 va vl vr vfin q1 q2 q3 q4 h1
          h2gen h3 h4]
        rw [toks_node, if_pos hw]
        rw [show ([Tok.lparen] ++ (toks a (some o) (some .l) ++ [Tok.op o]
            ++ toks b (some o) (some .r)) ++ [Tok.rparen]) ++ ts
            = Tok.lparen :: (toks a (some o) (some .l) ++ (Tok.op o
              :: (toks b (some o) (some .r) ++ (Tok.rparen :: ts))))
          from by simp]
        rw [syGo_lparen_step]
        rw [show SE.lparen :: (stkOf L ++ B)
            = stkOf [] ++ (SE.lparen :: (stkOf L ++ B)) from rfl]
        rw [iha (some o) (some .l) [] _ out _ (by constructor)]
        rw [h1]
        have hpop := popOps_collapse o va L1 (out ++ q1)
          (SE.lparen :: (stkOf L ++ B)) (by constructor)
        rw [h2gen] at hpop
        rw [syGo_op_step o _ _ _ _ _ hpop]
        rw [show SE.op o :: (stkOf L2 ++ SE.lparen :: (stkOf L ++ B))
            = stkOf ((vl, o) :: L2) ++ (SE.lparen :: (stkOf L ++ B))
          from rfl]
        rw [ihb (some o) (some .r) ((vl, o) :: L2) _ _ _ (by constructor)]
        rw [h3]
        have hpar := popToParen_collapse vr L3 (out ++ q1 ++ q2 ++ q3)
          (stkOf L ++ B)
        rw [h4] at hpar
        rw [syGo_rparen_step _ _ _ _ _ hpar]
        simp
      · have hw' : wrapNode o p s = false := by
          revert hw
          cases wrapNode o p s <;> simp
        rw [if_neg hw] at h1
        rw [spineRun_nowrap hw' L L1 L2 L3 va vl vr q1 q2 q3 h1 h2gen h3]
        rw [toks_node, if_neg hw]
        rw [show (toks a (some o) (some .l) ++ [Tok.op o]
            ++ toks b (some o) (some .r)) ++ ts
            = toks a (some o) (some .l) ++ (Tok.op o
              :: (toks b (some o) (some .r) ++ ts)) from by simp]
        rw [iha (some o) (some .l) L _ out B hB]
        rw [h1]
        have hpop := popOps_collapse o va L1 (out ++ q1) B hB
        rw [h2gen] at hpop
        rw [syGo_op_step o _ _ _ _ _ hpop]
        rw [show SE.op o :: (stkOf L2 ++ B)
            = stkOf ((vl, o) :: L2) ++ B from rfl]
        rw [ihb (some o) (some .r) ((vl, o) :: L2) _ _ _ hB]
        rw [h3]
        simp

/-! #### Folding the emitted postfix items builds the spine trees -/

/-- The retained part of a collapse is a suffix of the pending list. -/
theorem collapseUpto_mem (p : Nat) :
    ∀ (L : List (Expr × Op)) (v : Expr) (pr : Expr × Op),
      pr ∈ (collapseUpto p L v).1 → pr ∈ L := by
  intro L
  induction L with
  | nil => intro v pr h; simp [collapseUpto] at h
  | cons hd L ih =>
      intro v pr h
      obtain ⟨a, o2⟩ := hd
      by_cases hp : p ≤ precedence o2
      · rw [collapseUpto, if_pos hp] at h
        exact List.mem_cons_of_mem _ (ih _ pr h)
      · rw [collapseUpto, if_neg hp] at h
        exact h

/-- Collapsing all pending operators (`p = 0`) empties the pending list. -/
theorem collapseUpto_zero_nil :
    ∀ (L : List (Expr × Op)) (v : Expr), (collapseUpto 0 L v).1 = [] := by
  intro L
  induction L with
  | nil => intro v; rfl
  | cons hd L ih =>
      intro v
      obtain ⟨a, o2⟩ := hd
      rw [collapseUpto, if_pos (Nat.zero_le _)]
      exact ih _

/-- The pending operators after a spine run contain no division when the
expression and the initial pending list contain none. -/
theorem spineRun_ops : ∀ (e : Expr), divFree e →
    ∀ (L : List (Expr × Op)) (p : Option Op) (s : Option Side),
      (∀ pr ∈ L, pr.2 ≠ Op.div) →
      ∀ pr ∈ (spineRun L e p s).1, pr.2 ≠ Op.div := by
  intro e
  induction e with
  | lit n => intro _ L p s hL pr h; exact hL pr h
  | node a b o iha ihb =>
      intro hdf L p s hL
      have hone : o ≠ Op.div := hdf.1
      have hda : divFree a := hdf.2.1
      have hdb : divFree b := hdf.2.2
      rcases h1 : spineRun (if wrapNode o p s then [] else L) a (some o)
        (some .l) with ⟨L1, va, q1⟩
      rcases h2 : collapseUpto (precedence o) L1 va with ⟨L2, vl, q2⟩
      rcases h3 : spineRun ((vl, o) :: L2) b (some o) (some .r)
        with ⟨L3, vr, q3⟩
      by_cases hw : wrapNode o p s = true
      · rw [if_pos hw] at h1
        rcases h4 : collapseUpto 0 L3 vr with ⟨L4, vfin, q4⟩
        rw [spineRun_wrap hw L L1 L2 L3 L4 va vl vr vfin q1 q2 q3 q4 h1
          h2 h3 h4]
        exact hL
      · have hw' : wrapNode o p s = false := by
          revert hw; cases wrapNode o p s <;> simp
        rw [if_neg hw] at h1
        rw [spineRun_nowrap hw' L L1 L2 L3 va vl vr q1 q2 q3 h1 h2 h3]
        have hL1 : ∀ pr ∈ L1, pr.2 ≠ Op.div := by
          have := iha hda L (some o) (some .l) hL
          rw [h1] at this
          exact this
        have hL2 : ∀ pr ∈ L2, pr.2 ≠ Op.div := by
          intro pr hpr
          have : pr ∈ L1 := by
            have := collapseUpto_mem (precedence o) L1 va pr
            rw [h2] at this
            exact this hpr
          exact hL1 pr this
        have hLb : ∀ pr ∈ ((vl, o) :: L2), pr.2 ≠ Op.div := by
          intro pr hpr
          rcases List.mem_cons.mp hpr with rfl | hpr'
          · exact hone
          · exact hL2 pr hpr'
        have := ihb hdb ((vl, o) :: L2) (some o) (some .r) hLb
        rw [h3] at this
        exact this

/-- `foldPostfix` distributes over appending item lists. -/
theorem foldPostfix_append :
    ∀ (xs ys : List Item) (st st' : List Expr),
      foldPostfix xs st = .ok st' →
      foldPostfix (xs ++ ys) st = foldPostfix ys st' := by
  intro xs
  induction xs with
  | nil =>
      intro ys st st' h
      simp only [foldPostfix] at h
      cases h
      simp
  | cons it xs ih =>
      intro ys st st' h
      cases it with
      | num n =>
          rw [foldPostfix] at h
          rw [List.cons_append, foldPostfix]
          exact ih ys _ st' h
      | op o =>
          rcases st with _ | ⟨e2, _ | ⟨e1, rest⟩⟩
          · rw [foldPostfix] at h
            exact Except.noConfusion h
          · rw [foldPostfix] at h
            exact Except.noConfusion h
          · rw [foldPostfix] at h
            rw [List.cons_append, foldPostfix]
            cases hc : compose e1 e2 o with
            | error err => rw [hc] at h; exact Except.noConfusion h
            | ok e =>
                rw [hc] at h
                exact ih ys (e :: rest) st' h

/-- Folding the items emitted by a collapse applies the pending operators to
the expression stack. -/
theorem fold_collapse (p : Nat) :
    ∀ (L : List (Expr × Op)) (v : Expr) (es : List Expr),
      (∀ pr ∈ L, pr.2 ≠ Op.div) →
      foldPostfix (collapseUpto p L v).2.2 (v :: (L.map Prod.fst ++ es)) =
        .ok ((collapseUpto p L v).2.1
          :: ((collapseUpto p L v).1.map Prod.fst ++ es)) := by
  intro L
  induction L with
  | nil => intro v es _; simp [collapseUpto, foldPostfix]
  | cons hd L ih =>
      intro v es hL
      obtain ⟨a, o2⟩ := hd
      have ho2 : o2 ≠ Op.div := hL (a, o2) (List.mem_cons_self _ _)
      by_cases hp : p ≤ precedence o2
      · rw [collapseUpto, if_pos hp]
        simp only [List.map_cons, List.cons_append]
        rw [foldPostfix]
        rw [show compose a v o2 = .ok (.node a v o2) from by
          rw [compose, if_neg ho2]]
        exact ih (.node a v o2) es fun pr hpr =>
          hL pr (List.mem_cons_of_mem _ hpr)
      · rw [collapseUpto, if_neg hp]
        simp [foldPostfix]

/-- Folding the items emitted by a spine run pushes the built tree onto the
expression stack (and replaces the consumed pending left operands). -/
theorem fold_spine : ∀ (e : Expr), divFree e →
    ∀ (L : List (Expr × Op)) (p : Option Op) (s : Option Side)
      (es : List Expr),
      (∀ pr ∈ L, pr.2 ≠ Op.div) →
      foldPostfix (spineRun L e p s).2.2 (L.map Prod.fst ++ es) =
        .ok ((spineRun L e p s).2.1
          :: ((spineRun L e p s).1.map Prod.fst ++ es)) := by
  intro e
  induction e with
  | lit n => intro _ L p s es _; simp [spineRun, foldPostfix]
  | node a b o iha ihb =>
      intro hdf L p s es hL
      have hone : o ≠ Op.div := hdf.1
      have hda : divFree a := hdf.2.1
      have hdb : divFree b := hdf.2.2
      rcases h1 : spineRun (if wrapNode o p s then [] else L) a (some o)
        (some .l) with ⟨L1, va, q1⟩
      rcases h2 : collapseUpto (precedence o) L1 va with ⟨L2, vl, q2⟩
      rcases h3 : spineRun ((vl, o) :: L2) b (some o) (some .r)
        with ⟨L3, vr, q3⟩
      have hL1of : ∀ (L0 : List (Expr × Op)),
          (∀ pr ∈ L0, pr.2 ≠ Op.div) →
          spineRun L0 a (some o) (some .l) = (L1, va, q1) →
          ∀ pr ∈ L1, pr.2 ≠ Op.div := by
        intro L0 hL0 h1'
        have := spineRun_ops a hda L0 (some o) (some .l) hL0
        rw [h1'] at this
        exact this
      have hL2of : (∀ pr ∈ L1, pr.2 ≠ Op.div) → ∀ pr ∈ L2, pr.2 ≠ Op.div := by
        intro hL1 pr hpr
        refine hL1 pr ?_
        have := collapseUpto_mem (precedence o) L1 va pr
        rw [h2] at this
        exact this hpr
      by_cases hw : wrapNode o p s = true
      · rw [if_pos hw] at h1
        rcases h4 : collapseUpto 0 L3 vr with ⟨L4, vfin, q4⟩
        rw [spineRun_wrap hw L L1 L2 L3 L4 va vl vr vfin q1 q2 q3 q4 h1
          h2 h3 h4]
        have hL1 := hL1of [] (by simp) h1
        have hL2 := hL2of hL1
        have hLb : ∀ pr ∈ ((vl, o) :: L2), pr.2 ≠ Op.div := by
          intro pr hpr
          rcases List.mem_cons.mp hpr with rfl | hpr'
          · exact hone
          · exact hL2 pr hpr'
        have hf1 : foldPostfix q1 (L.map Prod.fst ++ es) =
            .ok (va :: (L1.map Prod.fst ++ (L.map Prod.fst ++ es))) := by
          have := iha hda [] (some o) (some .l) (L.map Prod.fst ++ es)
            (by simp)
          rw [h1] at this
          simpa using this
        have hf2 : foldPostfix q2
            (va :: (L1.map Prod.fst ++ (L.map Prod.fst ++ es))) =
            .ok (vl :: (L2.map Prod.fst ++ (L.map Prod.fst ++ es))) := by
          have := fold_collapse (precedence o) L1 va
            (L.map Prod.fst ++ es) hL1
          rw [h2] at this
          simpa using this
        have hf3 : foldPostfix q3
            (vl :: (L2.map Prod.fst ++ (L.map Prod.fst ++ es))) =
            .ok (vr :: (L3.map Prod.fst ++ (L.map Prod.fst ++ es))) := by
          have := ihb hdb ((vl, o) :: L2) (some o) (some .r)
            (L.map Prod.fst ++ es) hLb
          rw [h3] at this
          simpa using this
        have hL3 : ∀ pr ∈ L3, pr.2 ≠ Op.div := by
          have := spineRun_ops b hdb ((vl, o) :: L2) (some o) (some .r) hLb
          rw [h3] at this
          exact this
        have hL4 : L4 = [] := by
          have := collapseUpto_zero_nil L3 vr
          rw [h4] at this
          exact this
        subst hL4
        have hf4 : foldPostfix q4
            (vr :: (L3.map Prod.fst ++ (L.map Prod.fst ++ es))) =
            .ok (vfin :: (L.map Prod.fst ++ es)) := by
          have := fold_collapse 0 L3 vr (L.map Prod.fst ++ es) hL3
          rw [h4] at this
          simpa using this
        have hA : foldPostfix (q1 ++ q2) (L.map Prod.fst ++ es) =
            .ok (vl :: (L2.map Prod.fst ++ (L.map Prod.fst ++ es))) := by
          rw [foldPostfix_append q1 q2 _ _ hf1]
          exact hf2
        have hB : foldPostfix ((q1 ++ q2) ++ q3) (L.map Prod.fst ++ es) =
            .ok (vr :: (L3.map Prod.fst ++ (L.map Prod.fst ++ es))) := by
          rw [foldPostfix_append _ q3 _ _ hA]
          exact hf3
        rw [foldPostfix_append _ q4 _ _ hB]
        exact hf4
      · have hw' : wrapNode o p s = false := by
          revert hw; cases wrapNode o p s <;> simp
        rw [if_neg hw] at h1
        rw [spineRun_nowrap hw' L L1 L2 L3 va vl vr q1 q2 q3 h1 h2 h3]
        have hL1 := hL1of L hL h1
        have hL2 := hL2of hL1
        have hLb : ∀ pr ∈ ((vl, o) :: L2), pr.2 ≠ Op.div := by
          intro pr hpr
          rcases List.mem_cons.mp hpr with rfl | hpr'
          · exact hone
          · exact hL2 pr hpr'
        have hf1 : foldPostfix q1 (L.map Prod.fst ++ es) =
            .ok (va :: (L1.map Prod.fst ++ es)) := by
          have := iha hda L (some o) (some .l) es hL
          rw [h1] at this
          simpa using this
        have hf2 : foldPostfix q2 (va :: (L1.map Prod.fst ++ es)) =
            .ok (vl :: (L2.map Prod.fst ++ es)) := by
          have := fold_collapse (precedence o) L1 va es hL1
          rw [h2] at this
          simpa using this
        have hf3 : foldPostfix q3 (vl :: (L2.map Prod.fst ++ es)) =
            .ok (vr :: (L3.map Prod.fst ++ es)) := by
          have := ihb hdb ((vl, o) :: L2) (some o) (some .r) es hLb
          rw [h3] at this
          simpa using this
        have hA : foldPostfix (q1 ++ q2) (L.map Prod.fst ++ es) =
            .ok (vl :: (L2.map Prod.fst ++ es)) := by
          rw [foldPostfix_append q1 q2 _ _ hf1]
          exact hf2
        rw [foldPostfix_append _ q3 _ _ hA]
        exact hf3

/-! #### Value correctness of the spine run -/

/-- The integer operation of an operator (exact division for `/`; the
division case is never exercised by division-free expressions). -/
def appOp (o : Op) (x y : Int) : Int :=
  match o with
  | .add => x + y
  | .sub => x - y
  | .mul => x * y
  | .div => x / y

theorem exactVal_node (a b : Expr) (o : Op) :
    exactVal (.node a b o) = appOp o (exactVal a) (exactVal b) := by
  cases o <;> rfl

/-- Value-level collapse: apply pending operators of precedence `≥ p` to a
running value. -/
def vcU (p : Nat) : List (Expr × Op) → Int → List (Expr × Op) × Int
  | [], x => ([], x)
  | (a, o) :: rest, x =>
      if p ≤ precedence o then vcU p rest (appOp o (exactVal a) x)
      else ((a, o) :: rest, x)

/-- `collapseUpto` agrees with the value-level collapse. -/
theorem collapse_vcU (p : Nat) : ∀ (L : List (Expr × Op)) (v : Expr),
    (collapseUpto p L v).1 = (vcU p L (exactVal v)).1 ∧
    exactVal (collapseUpto p L v).2.1 = (vcU p L (exactVal v)).2 := by
  intro L
  induction L with
  | nil => intro v; exact ⟨rfl, rfl⟩
  | cons pr L ih =>
      intro v
      obtain ⟨a, o2⟩ := pr
      by_cases hp : p ≤ precedence o2
      · rw [collapseUpto, if_pos hp, vcU, if_pos hp, ← exactVal_node a v o2]
        exact ih _
      · rw [collapseUpto, if_neg hp, vcU, if_neg hp]
        exact ⟨rfl, rfl⟩

/-- The value-level collapse retains a subset of the pending list. -/
theorem vcU_mem (p : Nat) : ∀ (L : List (Expr × Op)) (x : Int)
    (pr : Expr × Op), pr ∈ (vcU p L x).1 → pr ∈ L := by
  intro L
  induction L with
  | nil => intro x pr h; simp [vcU] at h
  | cons hd L ih =>
      intro x pr h
      obtain ⟨a, o2⟩ := hd
      by_cases hp : p ≤ precedence o2
      · rw [vcU, if_pos hp] at h
        exact List.mem_cons_of_mem _ (ih _ pr h)
      · rw [vcU, if_neg hp] at h
        exact h

/-- Re-association: combining with an operator of the same precedence
commutes past a collapse at that precedence, when all pending operators are
associative and of bounded precedence. -/
theorem vcU_comm (oe : Op) (hoe : oe ≠ Op.div) :
    ∀ (L : List (Expr × Op)) (x y : Int) (q : Nat),
      q ≤ precedence oe →
      (∀ pr ∈ L, associative pr.2 = true ∧
        precedence pr.2 ≤ precedence oe) →
      vcU q (vcU (precedence oe) L x).1
        (appOp oe (vcU (precedence oe) L x).2 y) =
        vcU q L (appOp oe x y) := by
  intro L
  induction L with
  | nil => intro x y q hq hL; rfl
  | cons pr L ih =>
      intro x y q hq hL
      obtain ⟨a, o1⟩ := pr
      obtain ⟨ho1a, ho1p⟩ := hL (a, o1) (List.mem_cons_self _ _)
      by_cases hp : precedence oe ≤ precedence o1
      · rw [vcU, if_pos hp]
        rw [ih (appOp o1 (exactVal a) x) y q hq
          (fun pr hpr => hL pr (List.mem_cons_of_mem _ hpr))]
        rw [show vcU q ((a, o1) :: L) (appOp oe x y)
            = vcU q L (appOp o1 (exactVal a) (appOp oe x y)) from by
          rw [vcU, if_pos (le_trans hq hp)]]
        congr 1
        have ho1 : o1 = Op.add ∨ o1 = Op.mul := by
          revert ho1a
          cases o1 <;> simp [associative]
        have hprec : precedence o1 = precedence oe := le_antisymm ho1p hp
        rcases ho1 with rfl | rfl <;> cases oe <;>
          simp_all [precedence, appOp] <;> ring
      · rw [vcU, if_neg hp]

/-- The context bound: no pending operator above the barrier exceeds the
precedence of the parent operator. -/
def ctxBound : Option Op → Nat
  | none => 0
  | some o => precedence o

/-- Context invariant for unparenthesized processing: every pending operator
is associative and of precedence at most the context bound. -/
def ctxOK (L : List (Expr × Op)) (p : Option Op) : Prop :=
  ∀ pr ∈ L, associative pr.2 = true ∧ precedence pr.2 ≤ ctxBound p

/-- Hypothesis of the value lemma: literals need nothing; a node is either
parenthesized or processed in a valid context. -/
def spineH : Expr → List (Expr × Op) → Option Op → Option Side → Prop
  | .lit _, _, _, _ => True
  | .node _ _ o, L, p, s => wrapNode o p s = true ∨ ctxOK L p

/-- An unparenthesized node's operator precedence dominates the context
bound. -/
theorem ctxBound_le_of_nowrap {o : Op} {p : Option Op} {s : Option Side}
    (hw : wrapNode o p s = false) : ctxBound p ≤ precedence o := by
  cases p with
  | none => exact Nat.zero_le _
  | some op =>
      simp only [wrapNode, decide_eq_false_iff_not, not_or, not_and] at hw
      have := hw.1 (by simp)
      simpa [ctxBound] using Nat.not_lt.mp (by simpa using this)

/-- Value correctness of the spine run: after processing a division-free
expression with nonnegative literals, collapsing at any precedence allowed
by the context behaves, at the value level, exactly as collapsing the
original pending list over the expression's exact value. -/
theorem spine_value : ∀ (e : Expr), divFree e → nonnegLits e →
    ∀ (L : List (Expr × Op)) (p : Option Op) (s : Option Side),
      spineH e L p s →
      ∀ q, q ≤ ctxBound p →
        (collapseUpto q (spineRun L e p s).1 (spineRun L e p s).2.1).1
          = (vcU q L (exactVal e)).1
        ∧ exactVal (collapseUpto q (spineRun L e p s).1
            (spineRun L e p s).2.1).2.1
          = (vcU q L (exactVal e)).2 := by
  intro e
  induction e with
  | lit n =>
      intro _ hnn L p s _ q _
      have hcast : ((n.natAbs : Int)) = n := Int.natAbs_of_nonneg hnn
      have := collapse_vcU q L (.lit (n.natAbs : Int))
      rw [show exactVal (.lit (n.natAbs : Int)) = n from hcast] at this
      exact this
  | node a b o iha ihb =>
      intro hdf hnn L p s hH q hq
      have hone : o ≠ Op.div := hdf.1
      have hda : divFree a := hdf.2.1
      have hdb : divFree b := hdf.2.2
      have hna : nonnegLits a := hnn.1
      have hnb : nonnegLits b := hnn.2
      rcases h1 : spineRun (if wrapNode o p s then [] else L) a (some o)
        (some .l) with ⟨L1, va, q1⟩
      rcases h2 : collapseUpto (precedence o) L1 va with ⟨L2, vl, q2⟩
      rcases h3 : spineRun ((vl, o) :: L2) b (some o) (some .r)
        with ⟨L3, vr, q3⟩
      by_cases hw : wrapNode o p s = true
      · -- parenthesized: the inner run happens over an empty pending list
        rw [if_pos hw] at h1
        rcases h4 : collapseUpto 0 L3 vr with ⟨L4, vfin, q4⟩
        rw [spineRun_wrap hw L L1 L2 L3 L4 va vl vr vfin q1 q2 q3 q4 h1
          h2 h3 h4]
        have hia := iha hda hna [] (some o) (some .l)
          (by cases a with
            | lit _ => trivial
            | node a1 a2 oa => exact Or.inr (by intro pr hpr; simp at hpr))
          (precedence o) le_rfl
        rw [h1, h2] at hia
        have hL2 : L2 = [] := hia.1
        have hvl : exactVal vl = exactVal a := hia.2
        subst hL2
        have hsb : spineH b [(vl, o)] (some o) (some .r) := by
          cases b with
          | lit _ => trivial
          | node b1 b2 ob =>
              by_cases hao : associative o = true
              · right
                intro pr hpr
                rcases List.mem_cons.mp hpr with rfl | hpr'
                · exact ⟨hao, le_rfl⟩
                · simp at hpr'
              · left
                simp [wrapNode, assocOpt, hao]
        have hib := ihb hdb hnb [(vl, o)] (some o) (some .r) hsb 0
          (Nat.zero_le _)
        rw [h3, h4] at hib
        have hvfin : exactVal vfin =
            appOp o (exactVal a) (exactVal b) := by
          have := hib.2
          rw [show vcU 0 [(vl, o)] (exactVal b)
              = ([], appOp o (exactVal vl) (exactVal b)) from by
            rw [vcU, if_pos (Nat.zero_le _)]; rfl] at this
          rw [this, hvl]
        have := collapse_vcU q L vfin
        rw [hvfin, ← exactVal_node a b o] at this
        exact this
      · -- unparenthesized
        have hw' : wrapNode o p s = false := by
          revert hw; cases wrapNode o p s <;> simp
        have hctx : ctxOK L p := by
          rcases (hH : wrapNode o p s = true ∨ ctxOK L p) with hww | hc
          · exact absurd hww hw
          · exact hc
        have hpb : ctxBound p ≤ precedence o := ctxBound_le_of_nowrap hw'
        rw [if_neg hw] at h1
        rw [spineRun_nowrap hw' L L1 L2 L3 va vl vr q1 q2 q3 h1 h2 h3]
        have hctxa : ctxOK L (some o) := by
          intro pr hpr
          obtain ⟨hx, hy⟩ := hctx pr hpr
          exact ⟨hx, le_trans hy hpb⟩
        have hia := iha hda hna L (some o) (some .l)
          (by cases a with
            | lit _ => trivial
            | node a1 a2 oa => exact Or.inr hctxa)
          (precedence o) le_rfl
        rw [h1, h2] at hia
        have hL2 : L2 = (vcU (precedence o) L (exactVal a)).1 := hia.1
        have hvl : exactVal vl = (vcU (precedence o) L (exactVal a)).2 :=
          hia.2
        have hsb : spineH b ((vl, o) :: L2) (some o) (some .r) := by
          cases b with
          | lit _ => trivial
          | node b1 b2 ob =>
              by_cases hao : associative o = true
              · right
                intro pr hpr
                rcases List.mem_cons.mp hpr with rfl | hpr'
                · exact ⟨hao, le_rfl⟩
                · have hmem : pr ∈ L := by
                    rw [hL2] at hpr'
                    exact vcU_mem _ _ _ _ hpr'
                  obtain ⟨hx, hy⟩ := hctx pr hmem
                  exact ⟨hx, le_trans hy hpb⟩
              · left
                simp [wrapNode, assocOpt, hao]
        have hib := ihb hdb hnb ((vl, o) :: L2) (some o) (some .r) hsb q
          (le_trans hq hpb)
        rw [h3] at hib
        rw [show vcU q ((vl, o) :: L2) (exactVal b)
            = vcU q L2 (appOp o (exactVal vl) (exactVal b)) from by
          rw [vcU, if_pos (le_trans hq hpb)]] at hib
        rw [hL2, hvl] at hib
        rw [vcU_comm o hone L (exactVal a) (exactVal b) q
          (le_trans hq hpb) hctxa] at hib
        rw [← exactVal_node a b o] at hib
        exact hib

/-- `value` of a division-free expression never raises and agrees with the
exact value. -/
theorem value_divFree : ∀ (t : Expr), divFree t → value t = some (exactVal t) := by
  intro t
  induction t with
  | lit n => intro _; rfl
  | node a b o iha ihb =>
      intro hdf
      rw [value, iha hdf.2.1, ihb hdf.2.2]
      cases o with
      | add => rfl
      | sub => rfl
      | mul => rfl
      | div => exact absurd rfl hdf.1

/-- Collapsing preserves division-freeness of the pending trees and the
built tree. -/
theorem collapseUpto_divFree (p : Nat) :
    ∀ (L : List (Expr × Op)) (v : Expr),
      (∀ pr ∈ L, divFree pr.1 ∧ pr.2 ≠ Op.div) → divFree v →
      (∀ pr ∈ (collapseUpto p L v).1, divFree pr.1 ∧ pr.2 ≠ Op.div)
        ∧ divFree (collapseUpto p L v).2.1 := by
  intro L
  induction L with
  | nil => intro v _ hv; exact ⟨by simp [collapseUpto], hv⟩
  | cons hd L ih =>
      intro v hL hv
      obtain ⟨a, o2⟩ := hd
      obtain ⟨ha, ho2⟩ := hL (a, o2) (List.mem_cons_self _ _)
      by_cases hp : p ≤ precedence o2
      · rw [collapseUpto, if_pos hp]
        exact ih (.node a v o2)
          (fun pr hpr => hL pr (List.mem_cons_of_mem _ hpr)) ⟨ho2, ha, hv⟩
      · rw [collapseUpto, if_neg hp]
        exact ⟨hL, hv⟩

/-- A spine run over a division-free expression keeps all pending trees and
the built atom division-free. -/
theorem spineRun_divFree : ∀ (e : Expr), divFree e →
    ∀ (L : List (Expr × Op)) (p : Option Op) (s : Option Side),
      (∀ pr ∈ L, divFree pr.1 ∧ pr.2 ≠ Op.div) →
      (∀ pr ∈ (spineRun L e p s).1, divFree pr.1 ∧ pr.2 ≠ Op.div)
        ∧ divFree (spineRun L e p s).2.1 := by
  intro e
  induction e with
  | lit n => intro _ L p s hL; exact ⟨hL, trivial⟩
  | node a b o iha ihb =>
      intro hdf L p s hL
      have hone : o ≠ Op.div := hdf.1
      have hda : divFree a := hdf.2.1
      have hdb : divFree b := hdf.2.2
      rcases h1 : spineRun (if wrapNode o p s then [] else L) a (some o)
        (some .l) with ⟨L1, va, q1⟩
      rcases h2 : collapseUpto (precedence o) L1 va with ⟨L2, vl, q2⟩
      rcases h3 : spineRun ((vl, o) :: L2) b (some o) (some .r)
        with ⟨L3, vr, q3⟩
      have hstep : ∀ (L0 : List (Expr × Op)),
          (∀ pr ∈ L0, divFree pr.1 ∧ pr.2 ≠ Op.div) →
          spineRun L0 a (some o) (some .l) = (L1, va, q1) →
          (∀ pr ∈ L3, divFree pr.1 ∧ pr.2 ≠ Op.div) ∧ divFree vr := by
        intro L0 hL0 h1'
        have hia := iha hda L0 (some o) (some .l) hL0
        rw [h1'] at hia
        have hic := collapseUpto_divFree (precedence o) L1 va hia.1 hia.2
        rw [h2] at hic
        have hLb : ∀ pr ∈ ((vl, o) :: L2), divFree pr.1 ∧ pr.2 ≠ Op.div := by
          intro pr hpr
          rcases List.mem_cons.mp hpr with rfl | hpr'
          · exact ⟨hic.2, hone⟩
          · exact hic.1 pr hpr'
        have hib := ihb hdb ((vl, o) :: L2) (some o) (some .r) hLb
        rw [h3] at hib
        exact hib
      by_cases hw : wrapNode o p s = true
      · rw [if_pos hw] at h1
        rcases h4 : collapseUpto 0 L3 vr with ⟨L4, vfin, q4⟩
        rw [spineRun_wrap hw L L1 L2 L3 L4 va vl vr vfin q1 q2 q3 q4 h1
          h2 h3 h4]
        have h5 := hstep [] (by simp) h1
        have h6 := collapseUpto_divFree 0 L3 vr h5.1 h5.2
        rw [h4] at h6
        exact ⟨hL, h6.2⟩
      · have hw' : wrapNode o p s = false := by
          revert hw; cases wrapNode o p s <;> simp
        rw [if_neg hw] at h1
        rw [spineRun_nowrap hw' L L1 L2 L3 va vl vr q1 q2 q3 h1 h2 h3]
        exact hstep L hL h1

theorem except_ok_bind (a : α) (f : α → Except ε β) :
    (Except.ok a >>= f : Except ε β) = f a := rfl

/-- The `spineH` hypothesis holds over an empty pending list. -/
theorem spineH_nil (e : Expr) (p : Option Op) (s : Option Side) :
    spineH e [] p s := by
  cases e with
  | lit _ => trivial
  | node a b o => exact Or.inr fun pr hpr => by simp at hpr

/-- C2 counterexample: `literal(-3)` is a valid division-free expression
tree, it renders as `"-3"`, and `parse "-3"` treats the minus sign as a
binary operator, underflowing the operand stack (`IndexError`, a raised
exception) instead of succeeding. -/
theorem c2_negative_literal_counterexample :
    divFree (Expr.lit (-3)) ∧ render (Expr.lit (-3)) = "-3"
      ∧ parse (render (Expr.lit (-3))) = .error Err.indexError :=
  ⟨trivial, rfl, rfl⟩

/-- C2 (amended): for every valid expression tree that contains no division
node and whose literals are all nonnegative, `parse (render e)` succeeds
and the resulting expression's `value` equals `e`'s `value` (round-trip on
value, not necessarily on literal text). -/
theorem c2_parse_render_roundtrip (e : Expr) (hdf : divFree e)
    (hnn : nonnegLits e) :
    ∃ t, parse (render e) = .ok t ∧ value t = value e := by
  rcases hsp : spineRun [] e none none with ⟨Lf, vf, Q⟩
  have htok : tokenize (rep e none none) = .ok (toks e none none) := by
    have := tokenize_rep e hnn none none [] (by constructor)
    rw [List.append_nil] at this
    unfold tokenize
    rw [this, show tokenizeGo ([] : List Char) [] = Except.ok [] from rfl]
    simp [Except.map]
  have hsy : syGo (toks e none none) [] [] = .ok (Q, stkOf Lf) := by
    have := syGo_spine e none none [] [] [] [] (by constructor)
    rw [hsp] at this
    simpa [syGo, stkOf] using this
  have hLfops : ∀ pr ∈ Lf, pr.2 ≠ Op.div := by
    have := spineRun_ops e hdf [] none none (by simp)
    rw [hsp] at this
    exact this
  rcases hcol : collapseUpto 0 Lf vf with ⟨L4, vfin, q4⟩
  have hL4 : L4 = [] := by
    have := collapseUpto_zero_nil Lf vf
    rw [hcol] at this
    exact this
  subst hL4
  have hdrain : drain (stkOf Lf) Q = .ok (Q ++ q4) := by
    have := drain_collapse vf Lf Q
    rw [hcol] at this
    exact this
  have hfold1 : foldPostfix Q [] = .ok (vf :: Lf.map Prod.fst) := by
    have := fold_spine e hdf [] none none [] (by simp)
    rw [hsp] at this
    simpa using this
  have hfold2 : foldPostfix q4 (vf :: Lf.map Prod.fst) = .ok [vfin] := by
    have := fold_collapse 0 Lf vf [] hLfops
    rw [hcol] at this
    simpa using this
  have hfold : foldPostfix (Q ++ q4) [] = .ok [vfin] := by
    rw [foldPostfix_append _ _ _ _ hfold1]
    exact hfold2
  have hparse : parse (render e) = .ok vfin := by
    show parseChars (rep e none none) = .ok vfin
    unfold parseChars
    rw [htok, except_ok_bind, hsy, except_ok_bind]
    dsimp only
    rw [hdrain, except_ok_bind, hfold, except_ok_bind]
  have hdvfin : divFree vfin := by
    have h5 := spineRun_divFree e hdf [] none none (by simp)
    rw [hsp] at h5
    have h6 := collapseUpto_divFree 0 Lf vf h5.1 h5.2
    rw [hcol] at h6
    exact h6.2
  have hval : exactVal vfin = exactVal e := by
    have := spine_value e hdf hnn [] none none (spineH_nil e none none) 0
      le_rfl
    rw [hsp, hcol] at this
    simpa [vcU] using this.2
  exact ⟨vfin, hparse, by
    rw [value_divFree vfin hdvfin, value_divFree e hdf, hval]⟩

/-- C2 witness: the round-trip applied at `(3 * 2) + 2`. -/
theorem c2_parse_render_roundtrip_witness :
    ∃ t, parse (render (Expr.node (.node (.lit 3) (.lit 2) .mul)
      (.lit 2) .add)) = .ok t
      ∧ value t = value (Expr.node (.node (.lit 3) (.lit 2) .mul)
        (.lit 2) .add) :=
  c2_parse_render_roundtrip _ (by decide) (by decide)

/-! ### Whitespace-separated numbers with no operators (C10) -/

/-- The characters of a list of integers joined by single spaces. -/
def numsChars : List Nat → List Char
  | [] => []
  | [n] => natChars n
  | n :: ns => natChars n ++ ' ' :: numsChars ns

theorem tokenize_nums : ∀ ns : List Nat,
    tokenizeGo (numsChars ns) [] = .ok (ns.map Tok.num) := by
  intro ns
  induction ns with
  | nil => rfl
  | cons n ms ih =>
      cases ms with
      | nil =>
          rw [show numsChars [n] = natChars n from rfl]
          rw [show natChars n = natChars n ++ [] from (List.append_nil _).symm]
          rw [tokenizeGo_digits _ (natChars_digits _) [] []]
          rw [show tokenizeGo [] ([] ++ natChars n)
              = .ok (flushNum ([] ++ natChars n)) from rfl]
          simp [flushNum, natChars_ne_nil, charsToNat_natChars]
      | cons m ms' =>
          rw [show numsChars (n :: m :: ms')
              = natChars n ++ ' ' :: numsChars (m :: ms') from rfl]
          rw [tokenizeGo_digits _ (natChars_digits _) _ []]
          rw [tokenizeGo_flush _ _ (by constructor)]
          rw [tok_step_space, ih]
          simp [flushNum, natChars_ne_nil, charsToNat_natChars]

theorem syGo_nums : ∀ (ns : List Nat) (out : List Item) (stk : List SE),
    syGo (ns.map Tok.num) out stk = .ok (out ++ ns.map Item.num, stk) := by
  intro ns
  induction ns with
  | nil => intro out stk; simp [syGo]
  | cons n ms ih =>
      intro out stk
      rw [List.map_cons, syGo_num_step, ih]
      simp

theorem fold_nums : ∀ (ns : List Nat) (st : List Expr),
    foldPostfix (ns.map Item.num) st =
      .ok ((ns.map fun n => Expr.lit (n : Int)).reverse ++ st) := by
  intro ns
  induction ns with
  | nil => intro st; simp [foldPostfix]
  | cons n ms ih =>
      intro st
      rw [List.map_cons, foldPostfix, ih]
      simp

/-- C10: an input of two or more whitespace-separated integers (no
operators, no parentheses) parses without error and yields the literal of
the LAST integer, silently discarding all the preceding ones (`parse`
returns `stack.pop()`, the top of the operand stack). -/
theorem c10_trailing_number_wins (ms : List Nat) (n : Nat) (_h : ms ≠ []) :
    parse ⟨numsChars (ms ++ [n])⟩ = .ok (.lit (n : Int)) := by
  show parseChars (numsChars (ms ++ [n])) = _
  unfold parseChars
  rw [show tokenize (numsChars (ms ++ [n]))
      = .ok ((ms ++ [n]).map Tok.num) from tokenize_nums _, except_ok_bind]
  rw [syGo_nums, except_ok_bind]
  dsimp only
  rw [show drain [] ([] ++ (ms ++ [n]).map Item.num)
      = .ok ([] ++ (ms ++ [n]).map Item.num) from rfl, except_ok_bind]
  rw [List.nil_append, fold_nums, except_ok_bind]
  simp

/-- C10 witness: `parse "1 2"` returns `literal(2)`. -/
theorem c10_trailing_number_wins_witness : parse "1 2" = .ok (.lit 2) := by
  have h := c10_trailing_number_wins [1] 2 (by decide)
  exact h

end MojBroj
